import Mathlib

/-!
Verification of the Kite-AI auto runner (`main.py`) against its
natural-language specification.

The development shallowly embeds the three core pieces of the program:

* the HTTP result classifier `request_json`,
* the per-account chat budget allocator (the chat loops of
  `process_account`),
* the persisted staking state machine (`ensure_account_state`,
  `hours_since`, `staking_cycle`).

Remote I/O is modelled by oracles: each remote call consumes the next
value of a function `Nat → _` giving that call's classified outcome.
Python floats are modelled as rationals, ISO timestamps as rational
numbers of seconds, and Python dicts as association lists (insertion
order preserved, first-key lookup).  Console output, spinners and
sleeps are not modelled; where the source only prints, the model either
drops the print or records the printed datum when a claim refers to it.
-/

namespace KiteAI

/-! ### Character-list substring helpers

`"too many" in err` style containment tests from `request_json`,
modelled on explicit character lists. -/

/-- `chStarts s p` is true when `p` is an initial segment of `s`. -/
def chStarts : List Char → List Char → Bool
  | _, [] => true
  | [], _ :: _ => false
  | a :: s, b :: p => a == b && chStarts s p

/-- `chContains s p` is true when `p` occurs contiguously inside `s`. -/
def chContains : List Char → List Char → Bool
  | [], p => chStarts [] p
  | s@(_ :: t), p => chStarts s p || chContains t p

/-- Python's `pat in s` on strings. -/
def strContains (s pat : String) : Bool :=
  chContains s.toList pat.toList

/-- Python's `s.lower()` (ASCII case folding suffices for the patterns
used), expressed as a character-list map. -/
def lowerStr (s : String) : String :=
  ⟨s.data.map Char.toLower⟩

/-! ### The HTTP result classifier (`request_json`, main.py lines 138-154)

A completed exchange is a status code together with the decoded body:
`none` models a body that `r.json()` fails to decode, `some data`
models a decoded JSON object, kept as an association list of
string-valued fields (only the `error` field steers control flow). -/

/-- First-match lookup in an association list (Python dict `.get`). -/
def alookup (k : String) : List (String × String) → Option String
  | [] => none
  | (k', v) :: rest => if k' = k then some v else alookup k rest

/-- Outcome of `request_json`: a returned payload, a raised
`TooManyRequestsError`, or a raised `HTTPError` with its message. -/
inductive ReqOutcome where
  | ok (payload : List (String × String))
  | throttled
  | httpError (msg : String)
  deriving DecidableEq

/-- Whether the outcome is a normally returned payload. -/
def ReqOutcome.isOk : ReqOutcome → Bool
  | .ok _ => true
  | _ => false

/-- The throttle text test of main.py line 149:
`"too many" in err or ("rate" in err and "limit" in err)` applied to
the lower-cased error field. -/
def throttledText (err : String) : Bool :=
  strContains err "too many" || (strContains err "rate" && strContains err "limit")

/-- `data.get("error") or ""`: the error field of a decoded body,
empty when absent. -/
def errField (data : List (String × String)) : String :=
  (alookup "error" data).getD ""

/-- Shallow embedding of `request_json` (main.py lines 138-154).
`status` is `r.status_code`; `body` is the result of `r.json()`
(`none` when decoding raises).  429 is checked before decoding; a
decode failure runs `raise_for_status` (an `HTTPError` for
status ≥ 400, else the empty dict is returned); a decoded error field
matching the throttle pattern raises `TooManyRequestsError`; any other
status ≥ 400 raises `HTTPError` with the error field or a generic
message. -/
def request_json (status : Nat) (body : Option (List (String × String))) : ReqOutcome :=
  if status = 429 then .throttled
  else
    match body with
    | none =>
      if 400 ≤ status then .httpError ("HTTP " ++ toString status) else .ok []
    | some data =>
      let err := lowerStr (errField data)
      if throttledText err then .throttled
      else if 400 ≤ status then
        .httpError (if errField data = "" then "HTTP " ++ toString status else errField data)
      else .ok data

/-! ### The chat budget allocator (`process_account`, main.py lines 564-624)

The chat loops of `process_account` are embedded as pure functions over
an environment: `oracle` gives the classified outcome of each
`_send_one_chat` call in issue order (`_send_one_chat` returns
`(True, False)` on success, `(False, True)` on `TooManyRequestsError`,
`(False, False)` on any other failure), `pick` is the pseudo-random
index drawn by `random.choice`, `txh` the transaction hash fetched by
`get_random_tx_hash` for the Sherlock fallback, `topics` the per-agent
topic pools, and `cpa` the `chat_per_agent` prompt value.  The 2-second
`sleep_seconds(2)` between attempts has no modelled effect. -/

/-- `GLOBAL_DAILY_CHAT_CAP` (main.py line 62). -/
def GLOBAL_DAILY_CHAT_CAP : Nat := 9

/-- `AGENT_ORDER` (main.py lines 45-48). -/
def AGENT_ORDER : List String :=
  ["Professor", "Crypto Buddy", "Sherlock",
   "Zane", "Vyn", "Avril", "Noa", "Diane", "Sakura"]

/-- Classified outcome of one `_send_one_chat` call. -/
inductive ChatOutcome where
  | success
  | throttled
  | failure
  deriving DecidableEq

/-- One chat attempt actually issued: agent, message, outcome. -/
structure ChatAttempt where
  agent : String
  msg : String
  outcome : ChatOutcome
  deriving DecidableEq

/-- The mutable counters of the chat section of `process_account`:
`success`, `failed`, `total_success_today`, `consecutive_429`,
`hit_global_limit`, plus `sent`, the number of `_send_one_chat` calls
issued so far (the oracle cursor). -/
structure ChatState where
  success : Nat
  failed : Nat
  total : Nat
  consec : Nat
  hitLimit : Bool
  sent : Nat
  deriving DecidableEq

/-- The counter updates after one `_send_one_chat` (main.py lines
585-595 and 613-623): success resets `consecutive_429`; a rate-limited
failure increments it and trips `hit_global_limit` at five; any other
failure leaves it unchanged. -/
def chatStep (st : ChatState) : ChatOutcome → ChatState
  | .success =>
    { st with success := st.success + 1, total := st.total + 1,
              consec := 0, sent := st.sent + 1 }
  | .throttled =>
    { st with failed := st.failed + 1, consec := st.consec + 1,
              sent := st.sent + 1,
              hitLimit := st.hitLimit || decide (5 ≤ st.consec + 1) }
  | .failure =>
    { st with failed := st.failed + 1, sent := st.sent + 1 }

/-- Chat environment: outcome oracle, random-choice oracle, fallback
transaction hash, topic pools, `chat_per_agent`. -/
structure ChatEnv where
  oracle : Nat → ChatOutcome
  pick : Nat → Nat
  txh : String
  topics : String → List String
  cpa : Nat

/-- The Sherlock fallback message (main.py lines 577 and 606). -/
def fallbackMsg (txh : String) : String :=
  "What do you think of this transaction? " ++ txh

/-- Message selection for one attempt (main.py lines 576-582 /
605-610): Sherlock with an empty pool falls back to a fetched
transaction hash; any other agent with an empty pool yields no message
(the agent is skipped); otherwise a pseudo-random pool entry. -/
def msgFor (env : ChatEnv) (agent : String) (pool : List String) (k : Nat) : Option String :=
  if agent = "Sherlock" ∧ pool = [] then some (fallbackMsg env.txh)
  else
    match pool with
    | [] => none
    | _ :: _ => some (pool.getD (env.pick k % pool.length) "")

/-- The inner per-agent loop of the first pass (main.py lines 573-596):
up to `n` attempts (`n = min(chat_per_agent, cap - total)`), stopping
at the cap, at an empty non-fallback pool, or when the consecutive-429
counter trips the global limit. -/
def runAgent (env : ChatEnv) (agent : String) (pool : List String) :
    Nat → ChatState → ChatState × List ChatAttempt
  | 0, st => (st, [])
  | n + 1, st =>
    if GLOBAL_DAILY_CHAT_CAP ≤ st.total then (st, [])
    else
      match msgFor env agent pool st.sent with
      | none => (st, [])
      | some msg =>
        let o := env.oracle st.sent
        let st' := chatStep st o
        let att : ChatAttempt := ⟨agent, msg, o⟩
        if st'.hitLimit then (st', [att])
        else
          let r := runAgent env agent pool n st'
          (r.1, att :: r.2)

/-- The first full per-agent pass (main.py lines 567-598): iterate
agents in order, each getting `min(chat_per_agent, cap - total)`
attempts, stopping at the cap or when the global limit trips. -/
def pass1 (env : ChatEnv) : List String → ChatState → ChatState × List ChatAttempt
  | [], st => (st, [])
  | a :: rest, st =>
    if GLOBAL_DAILY_CHAT_CAP ≤ st.total then (st, [])
    else
      let attempts := min env.cpa (GLOBAL_DAILY_CHAT_CAP - st.total)
      let r := runAgent env a (env.topics a) attempts st
      if r.1.hitLimit then r
      else
        let r' := pass1 env rest r.1
        (r'.1, r.2 ++ r'.2)

/-- The extra balancing pass (main.py lines 599-624): one additional
attempt per agent in order, with the same fallback rule, an empty pool
skipping to the next agent, stopping at the cap or when the global
limit trips. -/
def pass2 (env : ChatEnv) : List String → ChatState → ChatState × List ChatAttempt
  | [], st => (st, [])
  | a :: rest, st =>
    if GLOBAL_DAILY_CHAT_CAP ≤ st.total then (st, [])
    else
      match msgFor env a (env.topics a) st.sent with
      | none => pass2 env rest st
      | some msg =>
        let o := env.oracle st.sent
        let st' := chatStep st o
        let att : ChatAttempt := ⟨a, msg, o⟩
        if st'.hitLimit then (st', [att])
        else
          let r := pass2 env rest st'
          (r.1, att :: r.2)

/-- The initial chat counters (main.py lines 564-566, with `success`
and `failed` starting at 0 on the authenticated path). -/
def initChat : ChatState := ⟨0, 0, 0, 0, false, 0⟩

/-- Whether the balancing pass runs (main.py line 599). -/
def balancingCond (env : ChatEnv) (st : ChatState) : Prop :=
  env.cpa = 1 ∧ st.total < GLOBAL_DAILY_CHAT_CAP ∧ st.hitLimit = false

instance (env : ChatEnv) (st : ChatState) : Decidable (balancingCond env st) := by
  unfold balancingCond
  infer_instance

/-- The whole chat section of `process_account` (main.py lines
564-624): the first per-agent pass followed, when `chat_per_agent = 1`
and capacity remains and the global limit has not tripped, by the
balancing pass. -/
def chatPhase (env : ChatEnv) : ChatState × List ChatAttempt :=
  let r := pass1 env AGENT_ORDER initChat
  if balancingCond env r.1 then
    let r' := pass2 env AGENT_ORDER r.1
    (r'.1, r.2 ++ r'.2)
  else r

/-- Requested chat slots over a list of agents: `chat_per_agent` for
each agent that can produce a message (non-empty pool, or Sherlock
whose empty pool falls back), 0 for the rest. -/
def slotsOver (env : ChatEnv) (names : List String) : Nat :=
  (names.map
    (fun a => if a = "Sherlock" ∨ env.topics a ≠ [] then env.cpa else 0)).sum

/-- Total requested chat slots of the first pass.  Spec wording:
"total available agent slots". -/
def availSlots (env : ChatEnv) : Nat :=
  slotsOver env AGENT_ORDER

/-- The outcomes of a list of chat attempts, in issue order. -/
def outcomesOf (tr : List ChatAttempt) : List ChatOutcome :=
  tr.map ChatAttempt.outcome

/-- Length of the throttled streak at the end of `l`, continuing an
incoming streak of `k`: a non-throttled outcome resets it. -/
def runFrom (k : Nat) : List ChatOutcome → Nat
  | [] => k
  | o :: l => runFrom (if o = .throttled then k + 1 else 0) l

/-- Whether a streak of five consecutive throttled outcomes occurs in
`l`, continuing an incoming streak of `k`. -/
def fiveFrom (k : Nat) : List ChatOutcome → Bool
  | [] => false
  | o :: l =>
    if o = .throttled then decide (5 ≤ k + 1) || fiveFrom (k + 1) l
    else fiveFrom 0 l

/-- Concrete chat environment: every send fails with a non-throttled
error, every agent has one topic, one chat per agent. -/
def envAllFail : ChatEnv :=
  ⟨fun _ => .failure, fun _ => 0, "0xdead", fun _ => ["hi"], 1⟩

/-- Concrete chat environment: every send succeeds, every agent has
one topic, two chats per agent. -/
def envAllSucc : ChatEnv :=
  ⟨fun _ => .success, fun _ => 0, "0xdead", fun _ => ["hi"], 2⟩

/-- Concrete chat environment: the first five sends are throttled,
nine chats per agent. -/
def envFiveThrottle : ChatEnv :=
  ⟨fun k => if k < 5 then .throttled else .success, fun _ => 0, "0xdead",
   fun _ => ["hi"], 9⟩

/-- Concrete chat environment: every pool is empty, so only Sherlock's
fallback can produce attempts. -/
def envEmptyPools : ChatEnv :=
  ⟨fun _ => .success, fun _ => 0, "0xdead", fun _ => [], 1⟩

/-! ### The staking state machine (main.py lines 313-506)

`staking_cycle` is embedded as a pure function.  Python dicts become
association lists (first-key lookup, in-place update, append on new
key — matching dict insertion order); ISO timestamps become rational
numbers of seconds, with `none` standing for a timestamp that is
missing or that `datetime.fromisoformat` fails to parse (both make
`hours_since` return `None`); floats become rationals.  Each remote
call consumes `oracle calls` — the classified outcome of the call with
sequence number `calls` — and appends one entry to the `ops` trace, so
the `i`-th entry of `ops` corresponds to `oracle i`.  The
console-only "Active Stakes" detection table (lines 413-428) and the
"too short" message test of the unstake error branch (lines 467-473),
which only choose between log lines, are not modelled; the countdown
printed by the unstake phase's under-24-hours branch (lines 476-478)
is recorded in `reports` because the specification refers to it. -/

/-- `SUBNET_ORDER` (main.py line 70). -/
def SUBNET_ORDER : List String := ["Kite AI Agents", "Bitte", "Bitmind"]

/-- `SUBNETS` (main.py lines 65-69), as a name-to-address function. -/
def SUBNETS (name : String) : String :=
  if name = "Kite AI Agents" then "0xb132001567650917d6bd695d1fab55db7986e9a5"
  else if name = "Bitte" then "0xca312b44a57cc9fd60f37e6c9a343a1ad92a3b6c"
  else if name = "Bitmind" then "0xc368ae279275f80125284d16d292b650ecbbff8d"
  else ""

/-- `STAKE_MIN` (main.py line 64). -/
def STAKE_MIN : ℚ := 1

/-- `UNSTAKE_AFTER_HOURS` (main.py line 73). -/
def UNSTAKE_AFTER_HOURS : ℚ := 24

/-- One per-(account, target) record of the persisted staking state
(main.py lines 334-340). -/
structure SubnetRow where
  name : String
  staked : Bool
  last_stake_at : Option ℚ
  last_claim_at : Option ℚ
  last_unstake_at : Option ℚ
  deriving DecidableEq

/-- The default record `ensure_account_state` installs for a missing
target. -/
def defaultRow (name : String) : SubnetRow :=
  ⟨name, false, none, none, none⟩

/-- First-match lookup in an association list (Python dict access). -/
def plookup {α : Type} (k : String) : List (String × α) → Option α
  | [] => none
  | (k', v) :: rest => if k' = k then some v else plookup k rest

/-- Python dict assignment `d[k] = v`: overwrite the first occurrence
in place, append at the end when the key is new. -/
def pset {α : Type} (k : String) (v : α) : List (String × α) → List (String × α)
  | [] => [(k, v)]
  | (k', v') :: rest => if k' = k then (k, v) :: rest else (k', v') :: pset k v rest

/-- `if k not in d: d[k] = v` — insert only when the key is absent. -/
def insertIfAbsent {α : Type} (m : List (String × α)) (k : String) (v : α) :
    List (String × α) :=
  if (plookup k m).isSome then m else m ++ [(k, v)]

/-- The persisted store (`staking_state.json`): account address ↦ its
per-target records.  The Python value nests them under a `"subnets"`
key, whose sole content is this map. -/
structure Store where
  accounts : List (String × List (String × SubnetRow))
  deriving DecidableEq

/-- `acct[subnet]` after `ensure_account_state` has run: lookup with a
default that is never hit on the modelled paths. -/
def getRow (m : List (String × SubnetRow)) (k : String) : SubnetRow :=
  (plookup k m).getD (defaultRow "")

/-- The inner loop of `ensure_account_state` (main.py lines 331-340):
install a default record for each target of `names` that is missing
from the map. -/
def foldIns (names : List String) (m : List (String × SubnetRow)) :
    List (String × SubnetRow) :=
  names.foldl (fun acc name => insertIfAbsent acc (SUBNETS name) (defaultRow name)) m

/-- Shallow embedding of `ensure_account_state` (main.py lines
326-340): install an empty account entry when the address is new, then
install a default record for each target of `SUBNET_ORDER` that is
missing. -/
def ensure_account_state (st : Store) (address : String) : Store :=
  let accounts1 := insertIfAbsent st.accounts address []
  ⟨pset address (foldIns SUBNET_ORDER ((plookup address accounts1).getD [])) accounts1⟩

/-- Shallow embedding of `hours_since` (main.py lines 345-355):
elapsed hours from a stored timestamp to `now`, `none` when the
timestamp is missing or unparseable. -/
def hours_since (now : ℚ) (ts : Option ℚ) : Option ℚ :=
  ts.map (fun t => (now - t) / 3600)

/-- Python `int(...)` on a rational: truncation toward zero. -/
def truncQ (q : ℚ) : Int :=
  if q < 0 then ⌈q⌉ else ⌊q⌋

/-- Classified result of one staking-section remote call.  `ok`
carries the two numbers read off `get_balances` (kite, usdt); the
delegate / claim-rewards / undelegate calls ignore the payload. -/
inductive RR where
  | ok (a b : ℚ)
  | throttled
  | err
  deriving DecidableEq

/-- One remote call issued by `staking_cycle`, in issue order. -/
inductive StakeOp where
  | bal
  | stakeTo (n : String)
  | claimAt (n : String)
  | unstakeFrom (n : String)
  | restakeTo (n : String)
  deriving DecidableEq

/-- Whether the call belongs to one of the four mutation phases
(stake, claim, unstake, re-stake) rather than a balance fetch. -/
def StakeOp.isPhase : StakeOp → Bool
  | .bal => false
  | _ => true

/-- State threaded through the phases of one `staking_cycle` run: the
account's target map, the tracked `kite_bal`, the remote-call cursor
and the three counters. -/
structure CycSt where
  acct : List (String × SubnetRow)
  kite : ℚ
  calls : Nat
  stakedC : Nat
  claimedC : Nat
  unstakedC : Nat
  deriving DecidableEq

/-- Result of one phase loop. -/
structure LoopRes where
  s : CycSt
  ops : List StakeOp
  aborted : Bool
  deriving DecidableEq

/-- Result of the unstake loop, which additionally reports the
remaining wait for staked targets under 24 hours. -/
structure UnstakeRes where
  s : CycSt
  ops : List StakeOp
  reports : List (String × Int)
  aborted : Bool
  deriving DecidableEq

/-- The stake loop (main.py lines 392-411) — also the re-stake loop
(lines 485-502), whose body is identical up to log text; `opCon` tags
the recorded calls accordingly.  For each target in order, if idle and
at least one KITE remains, issue `delegate`: on success mark staked,
set `last_stake_at = now`, count it and spend 1 KITE; on
`TooManyRequestsError` abort the cycle; on any other failure log and
continue. -/
def stakeLoop (oracle : Nat → RR) (now : ℚ) (opCon : String → StakeOp) :
    List String → CycSt → LoopRes
  | [], s => ⟨s, [], false⟩
  | name :: rest, s =>
    let row := getRow s.acct (SUBNETS name)
    if row.staked = false ∧ STAKE_MIN ≤ s.kite then
      match oracle s.calls with
      | .ok _ _ =>
        let r := stakeLoop oracle now opCon rest
          { s with acct := pset (SUBNETS name)
                     { row with staked := true, last_stake_at := some now } s.acct,
                   kite := s.kite - 1, calls := s.calls + 1,
                   stakedC := s.stakedC + 1 }
        ⟨r.s, opCon name :: r.ops, r.aborted⟩
      | .throttled => ⟨{ s with calls := s.calls + 1 }, [opCon name], true⟩
      | .err =>
        let r := stakeLoop oracle now opCon rest { s with calls := s.calls + 1 }
        ⟨r.s, opCon name :: r.ops, r.aborted⟩
    else stakeLoop oracle now opCon rest s

/-- The claim loop (main.py lines 430-447): for every staked target,
regardless of elapsed time, issue `claim_rewards`: on success set
`last_claim_at = now` and count it; on `TooManyRequestsError` abort
the cycle; on any other failure log and continue. -/
def claimLoop (oracle : Nat → RR) (now : ℚ) :
    List String → CycSt → LoopRes
  | [], s => ⟨s, [], false⟩
  | name :: rest, s =>
    let row := getRow s.acct (SUBNETS name)
    if row.staked = true then
      match oracle s.calls with
      | .ok _ _ =>
        let r := claimLoop oracle now rest
          { s with acct := pset (SUBNETS name)
                     { row with last_claim_at := some now } s.acct,
                   calls := s.calls + 1, claimedC := s.claimedC + 1 }
        ⟨r.s, .claimAt name :: r.ops, r.aborted⟩
      | .throttled => ⟨{ s with calls := s.calls + 1 }, [.claimAt name], true⟩
      | .err =>
        let r := claimLoop oracle now rest { s with calls := s.calls + 1 }
        ⟨r.s, .claimAt name :: r.ops, r.aborted⟩
    else claimLoop oracle now rest s

/-- The unstake loop (main.py lines 448-478): for every staked target,
compute the elapsed hours since `last_stake_at` (0 when missing or
unparseable); at 24 hours or more issue `undelegate`: on success mark
idle, set `last_unstake_at = now` and count it; on
`TooManyRequestsError` abort the cycle; on any other failure log and
continue.  Under 24 hours issue nothing and report the remaining wait
`int(24*3600 - hrs*3600)` seconds. -/
def unstakeLoop (oracle : Nat → RR) (now : ℚ) :
    List String → CycSt → UnstakeRes
  | [], s => ⟨s, [], [], false⟩
  | name :: rest, s =>
    let row := getRow s.acct (SUBNETS name)
    if row.staked = true then
      let hrs := (hours_since now row.last_stake_at).getD 0
      if UNSTAKE_AFTER_HOURS ≤ hrs then
        match oracle s.calls with
        | .ok _ _ =>
          let r := unstakeLoop oracle now rest
            { s with acct := pset (SUBNETS name)
                       { row with staked := false, last_unstake_at := some now } s.acct,
                     calls := s.calls + 1, unstakedC := s.unstakedC + 1 }
          ⟨r.s, .unstakeFrom name :: r.ops, r.reports, r.aborted⟩
        | .throttled => ⟨{ s with calls := s.calls + 1 }, [.unstakeFrom name], [], true⟩
        | .err =>
          let r := unstakeLoop oracle now rest { s with calls := s.calls + 1 }
          ⟨r.s, .unstakeFrom name :: r.ops, r.reports, r.aborted⟩
      else
        let r := unstakeLoop oracle now rest s
        ⟨r.s, r.ops, (name, truncQ (24 * 3600 - hrs * 3600)) :: r.reports, r.aborted⟩
    else unstakeLoop oracle now rest s

/-- The guarded stake phase (main.py lines 390-413 and 483-504): the
stake loop runs only when the tracked balance is at least
`STAKE_MIN`; otherwise nothing is issued. -/
def stakePhase (oracle : Nat → RR) (now : ℚ) (run : Prop) [Decidable run]
    (opCon : String → StakeOp) (s : CycSt) : LoopRes :=
  if run then stakeLoop oracle now opCon SUBNET_ORDER s else ⟨s, [], false⟩

/-- Write the account's target map back into the store — the in-memory
`st` that `state_save` serialises. -/
def putAcct (st : Store) (address : String)
    (m : List (String × SubnetRow)) : Store :=
  ⟨pset address m st.accounts⟩

/-- Result of one `staking_cycle` run: the returned counter triple,
the in-memory store at return, whether `state_save` ran before the
return (every path saves except a throttled initial balance fetch,
which returns `(0,0,0)` directly), the remote calls issued in order,
and the under-24-hours reports. -/
structure StakeRes where
  counts : Nat × Nat × Nat
  store : Store
  saved : Bool
  ops : List StakeOp
  reports : List (String × Int)
  deriving DecidableEq

/-- Shallow embedding of `staking_cycle` (main.py lines 372-506):
load + ensure state, fetch balances (throttled ⇒ bare `(0,0,0)` return
with no save; any other failure ⇒ balances 0), then the stake, claim
and unstake phases in order — each aborting the cycle after a save on
a throttled call — then a best-effort balance re-fetch (any failure,
throttling included, just zeroes the balance) and the re-stake phase,
and finally `state_save`. -/
def staking_cycle (oracle : Nat → RR) (now : ℚ) (store : Store)
    (address : String) : StakeRes :=
  let st := ensure_account_state store address
  let acct := (plookup address st.accounts).getD []
  if oracle 0 = .throttled then ⟨(0, 0, 0), st, false, [.bal], []⟩
  else
    let kite := match oracle 0 with | .ok k _ => k | _ => 0
    let s0 : CycSt := ⟨acct, kite, 1, 0, 0, 0⟩
    let r1 := stakePhase oracle now (STAKE_MIN ≤ kite) .stakeTo s0
    if r1.aborted then
      ⟨(r1.s.stakedC, r1.s.claimedC, r1.s.unstakedC),
       putAcct st address r1.s.acct, true, .bal :: r1.ops, []⟩
    else
      let r2 := claimLoop oracle now SUBNET_ORDER r1.s
      if r2.aborted then
        ⟨(r2.s.stakedC, r2.s.claimedC, r2.s.unstakedC),
         putAcct st address r2.s.acct, true, .bal :: (r1.ops ++ r2.ops), []⟩
      else
        let r3 := unstakeLoop oracle now SUBNET_ORDER r2.s
        if r3.aborted then
          ⟨(r3.s.stakedC, r3.s.claimedC, r3.s.unstakedC),
           putAcct st address r3.s.acct, true,
           .bal :: (r1.ops ++ r2.ops ++ r3.ops), r3.reports⟩
        else
          let kite2 := match oracle r3.s.calls with | .ok k _ => k | _ => 0
          let s4 := { r3.s with kite := kite2, calls := r3.s.calls + 1 }
          let r5 := stakePhase oracle now (STAKE_MIN ≤ kite2) .restakeTo s4
          ⟨(r5.s.stakedC, r5.s.claimedC, r5.s.unstakedC),
           putAcct st address r5.s.acct, true,
           .bal :: (r1.ops ++ r2.ops ++ r3.ops ++ .bal :: r5.ops), r3.reports⟩

/-- The abort discipline of C5, as a predicate on an issued-call trace
whose `i`-th entry consumed `oracle i`: a throttled result on any
phase call ends the trace at that call and the state was saved. -/
def opsChar (oracle : Nat → RR) (start : Nat) (ops : List StakeOp)
    (saved : Bool) : Prop :=
  ∀ j (hj : j < ops.length), (ops.get ⟨j, hj⟩).isPhase = true →
    oracle (start + j) = .throttled → j = ops.length - 1 ∧ saved = true

/-! ### The account pipeline (`process_account`, main.py lines 533-661)

The parts surrounding the chat loops: two authentication calls (each
classified, a throttled one reporting `hit_global_limit = true`), the
daily quiz block, and the staking section.  The quiz and
`staking_cycle` run unconditionally after the chat loops — there is no
`hit_global_limit` test between them.  The final statistics fetch
(lines 644-660) is read-only and best-effort and is not modelled. -/

/-- Outcome of the quiz block (main.py lines 625-641): `okq r` when
create/get/submit all returned and `submit_quiz` yielded `r`;
`qthrottled` / `qerr` when a step raised.  All three failure shapes
count one failure; a throttled quiz does not abort anything. -/
inductive QuizR where
  | okq (result : Bool)
  | qthrottled
  | qerr
  deriving DecidableEq

/-- Result of one `process_account` run: the returned
`(success, failed, hit_global_limit)` triple plus the staking
artefacts needed by the claims. -/
structure PARes where
  success : Nat
  failed : Nat
  hit : Bool
  stakeOps : List StakeOp
  store : Store
  stakeSaved : Bool
  deriving DecidableEq

/-- Shallow embedding of `process_account` (main.py lines 533-661):
smart-account fetch and sign-in (throttled ⇒ `(0, 1, True)` return,
other failure ⇒ `(0, 1, False)`), the chat section, the quiz block,
then — unconditionally — `staking_cycle`. -/
def process_account (authSmart authLogin : RR) (chat : ChatEnv)
    (quiz : QuizR) (soracle : Nat → RR) (now : ℚ) (store : Store)
    (address : String) : PARes :=
  match authSmart with
  | .throttled => ⟨0, 1, true, [], store, false⟩
  | .err => ⟨0, 1, false, [], store, false⟩
  | .ok _ _ =>
    match authLogin with
    | .throttled => ⟨0, 1, true, [], store, false⟩
    | .err => ⟨0, 1, false, [], store, false⟩
    | .ok _ _ =>
      let c := chatPhase chat
      let sq : Nat × Nat :=
        match quiz with
        | .okq true => (c.1.success + 1, c.1.failed)
        | .okq false => (c.1.success, c.1.failed + 1)
        | .qthrottled => (c.1.success, c.1.failed + 1)
        | .qerr => (c.1.success, c.1.failed + 1)
      let sr := staking_cycle soracle now store address
      ⟨sq.1, sq.2, c.1.hitLimit, sr.ops, sr.store, sr.saved⟩

/-- Row invariant of C7: a staked record carries its stake
timestamp. -/
def rowOk (r : SubnetRow) : Bool :=
  !r.staked || r.last_stake_at.isSome

/-- C7's invariant over a target map. -/
def mapOk (m : List (String × SubnetRow)) : Bool :=
  m.all (fun kv => rowOk kv.2)

/-- C7's invariant over the whole store. -/
def storeOk (st : Store) : Bool :=
  st.accounts.all (fun kv => mapOk kv.2)

/-- Whether the store holds a record for (account, target). -/
def hasRow (st : Store) (a sub : String) : Bool :=
  ((plookup a st.accounts).bind (plookup sub)).isSome

/-- The empty persisted store (`state_load` on a missing or corrupt
file). -/
def storeEmpty : Store := ⟨[]⟩

/-- Concrete staking oracle: every call succeeds and balance reads
return 3 KITE. -/
def soAllOk : Nat → RR := fun _ => .ok 3 0

/-- Concrete staking oracle: the initial balance fetch succeeds with
zero balance, every later call is throttled. -/
def soThenThrottle : Nat → RR := fun k => if k = 0 then .ok 0 0 else .throttled

/-- Concrete staking oracle: the initial balance fetch succeeds with a
balance above `STAKE_MIN`, every later call is throttled. -/
def soOkThenThrottle : Nat → RR := fun k => if k = 0 then .ok 3 0 else .throttled

/-- Concrete store with one account already staked on the first
target. -/
def storeStaked : Store :=
  ⟨[("0xacc", [(SUBNETS "Kite AI Agents",
    ⟨"Kite AI Agents", true, some 0, none, none⟩)])]⟩

/-- Concrete cycle state with the first target staked at time 0, the
call cursor at 1 and no balance. -/
def sStaked : CycSt :=
  ⟨[(SUBNETS "Kite AI Agents", ⟨"Kite AI Agents", true, some 0, none, none⟩)],
   0, 1, 0, 0, 0⟩

/-! ### Theorems -/

theorem chStarts_refl (l : List Char) : chStarts l l = true := by
  induction l with
  | nil => rfl
  | cons a t ih => simp [chStarts, ih]

theorem chContains_append_right (s p : List Char) :
    chContains (s ++ p) p = true := by
  induction s with
  | nil =>
    cases p with
    | nil => rfl
    | cons b q => simp [chContains, chStarts_refl]
  | cons a t ih =>
    show (chStarts (a :: (t ++ p)) p || chContains (t ++ p) p) = true
    rw [ih, Bool.or_true]

theorem strContains_append_right (s p : String) :
    strContains (s ++ p) p = true := by
  unfold strContains
  show chContains (s ++ p).data p.data = true
  rw [String.data_append]
  exact chContains_append_right s.data p.data

theorem chatStep_total_le (st : ChatState) (o : ChatOutcome) :
    (chatStep st o).total ≤ st.total + 1 := by
  cases o <;> simp [chatStep]

theorem chatStep_total_ge (st : ChatState) (o : ChatOutcome) :
    st.total ≤ (chatStep st o).total := by
  cases o <;> simp [chatStep]

theorem chatStep_sync (st : ChatState) (o : ChatOutcome) :
    (chatStep st o).success + st.total = (chatStep st o).total + st.success := by
  cases o <;> simp [chatStep] <;> omega

theorem runAgent_total_le (env : ChatEnv) (a : String) (pool : List String) :
    ∀ n st, st.total ≤ GLOBAL_DAILY_CHAT_CAP →
      (runAgent env a pool n st).1.total ≤ GLOBAL_DAILY_CHAT_CAP := by
  intro n
  induction n with
  | zero => intro st h; exact h
  | succ n ih =>
    intro st h
    rw [runAgent]
    split
    · exact h
    · rename_i hcap
      cases hm : msgFor env a pool st.sent with
      | none => simpa [hm] using h
      | some msg =>
        simp only [hm]
        split
        · have := chatStep_total_le st (env.oracle st.sent)
          simp only
          omega
        · exact ih _ (by have := chatStep_total_le st (env.oracle st.sent); omega)

theorem pass1_total_le (env : ChatEnv) :
    ∀ names st, st.total ≤ GLOBAL_DAILY_CHAT_CAP →
      (pass1 env names st).1.total ≤ GLOBAL_DAILY_CHAT_CAP := by
  intro names
  induction names with
  | nil => intro st h; exact h
  | cons a rest ih =>
    intro st h
    rw [pass1]
    split
    · exact h
    · dsimp only
      split
      · exact runAgent_total_le env a (env.topics a) _ st h
      · exact ih _ (runAgent_total_le env a (env.topics a) _ st h)

theorem pass2_total_le (env : ChatEnv) :
    ∀ names st, st.total ≤ GLOBAL_DAILY_CHAT_CAP →
      (pass2 env names st).1.total ≤ GLOBAL_DAILY_CHAT_CAP := by
  intro names
  induction names with
  | nil => intro st h; exact h
  | cons a rest ih =>
    intro st h
    rw [pass2]
    split
    · exact h
    · rename_i hcap
      cases hm : msgFor env a (env.topics a) st.sent with
      | none => simpa [hm] using ih st h
      | some msg =>
        simp only [hm]
        split
        · have := chatStep_total_le st (env.oracle st.sent)
          simp only
          omega
        · exact ih _ (by have := chatStep_total_le st (env.oracle st.sent); omega)

theorem runAgent_sync (env : ChatEnv) (a : String) (pool : List String) :
    ∀ n st, (runAgent env a pool n st).1.success + st.total
      = (runAgent env a pool n st).1.total + st.success := by
  intro n
  induction n with
  | zero => intro st; rw [runAgent]; dsimp only; omega
  | succ n ih =>
    intro st
    rw [runAgent]
    split
    · dsimp only; omega
    · cases hm : msgFor env a pool st.sent with
      | none => simp only [hm]; omega
      | some msg =>
        simp only [hm]
        split
        · exact chatStep_sync st (env.oracle st.sent)
        · have h1 := ih (chatStep st (env.oracle st.sent))
          have h2 := chatStep_sync st (env.oracle st.sent)
          simp only
          omega

theorem pass1_sync (env : ChatEnv) :
    ∀ names st, (pass1 env names st).1.success + st.total
      = (pass1 env names st).1.total + st.success := by
  intro names
  induction names with
  | nil => intro st; rw [pass1]; dsimp only; omega
  | cons a rest ih =>
    intro st
    rw [pass1]
    split
    · dsimp only; omega
    · dsimp only
      split
      · exact runAgent_sync env a (env.topics a) _ st
      · have h1 := ih (runAgent env a (env.topics a)
          (min env.cpa (GLOBAL_DAILY_CHAT_CAP - st.total)) st).1
        have h2 := runAgent_sync env a (env.topics a)
          (min env.cpa (GLOBAL_DAILY_CHAT_CAP - st.total)) st
        simp only
        omega

theorem pass2_sync (env : ChatEnv) :
    ∀ names st, (pass2 env names st).1.success + st.total
      = (pass2 env names st).1.total + st.success := by
  intro names
  induction names with
  | nil => intro st; rw [pass2]; dsimp only; omega
  | cons a rest ih =>
    intro st
    rw [pass2]
    split
    · dsimp only; omega
    · cases hm : msgFor env a (env.topics a) st.sent with
      | none => simpa [hm] using ih st
      | some msg =>
        simp only [hm]
        split
        · exact chatStep_sync st (env.oracle st.sent)
        · have h1 := ih (chatStep st (env.oracle st.sent))
          have h2 := chatStep_sync st (env.oracle st.sent)
          simp only
          omega

theorem msgFor_eq_none_iff (env : ChatEnv) (a : String) (pool : List String) (k : Nat) :
    msgFor env a pool k = none ↔ pool = [] ∧ a ≠ "Sherlock" := by
  by_cases ha : a = "Sherlock" <;> cases pool <;> simp [msgFor, ha]

theorem slotsOver_cons (env : ChatEnv) (a : String) (rest : List String) :
    slotsOver env (a :: rest)
      = (if a = "Sherlock" ∨ env.topics a ≠ [] then env.cpa else 0) + slotsOver env rest := by
  simp [slotsOver]

theorem runAgent_allSucc (env : ChatEnv) (a : String) (pool : List String)
    (h : ∀ k, env.oracle k = .success) :
    ∀ n st, st.hitLimit = false → st.total + n ≤ GLOBAL_DAILY_CHAT_CAP →
      (runAgent env a pool n st).1.total
        = st.total + (if a = "Sherlock" ∨ pool ≠ [] then n else 0)
      ∧ (runAgent env a pool n st).1.hitLimit = false := by
  intro n
  induction n with
  | zero =>
    intro st hl _
    rw [runAgent]
    refine ⟨?_, hl⟩
    dsimp only
    split <;> omega
  | succ n ih =>
    intro st hl ht
    rw [runAgent]
    have hcap : ¬ GLOBAL_DAILY_CHAT_CAP ≤ st.total := by omega
    rw [if_neg hcap]
    cases hm : msgFor env a pool st.sent with
    | none =>
      have hav : ¬ (a = "Sherlock" ∨ pool ≠ []) := by
        have hn := (msgFor_eq_none_iff env a pool st.sent).mp hm
        simp only [not_or, not_not]
        exact ⟨hn.2, hn.1⟩
      simp [hav, hl]
    | some msg =>
      have hav : a = "Sherlock" ∨ pool ≠ [] := by
        by_contra hc
        simp only [not_or, not_not] at hc
        have := (msgFor_eq_none_iff env a pool st.sent).mpr ⟨hc.2, hc.1⟩
        rw [hm] at this
        exact Option.noConfusion this
      simp only [hm]
      rw [h st.sent]
      have hst' : (chatStep st .success).hitLimit = false := by
        simp [chatStep, hl]
      have hst't : (chatStep st .success).total = st.total + 1 := by
        simp [chatStep]
      simp only [hst', if_neg Bool.false_ne_true]
      have := ih (chatStep st .success) hst' (by omega)
      rw [hst't] at this
      refine ⟨?_, this.2⟩
      rw [this.1, if_pos hav]
      split <;> omega

theorem pass1_allSucc (env : ChatEnv) (h : ∀ k, env.oracle k = .success) :
    ∀ names st, st.hitLimit = false → st.total ≤ GLOBAL_DAILY_CHAT_CAP →
      (pass1 env names st).1.total
        = min GLOBAL_DAILY_CHAT_CAP (st.total + slotsOver env names)
      ∧ (pass1 env names st).1.hitLimit = false := by
  intro names
  induction names with
  | nil =>
    intro st hl ht
    rw [pass1]
    refine ⟨?_, hl⟩
    simp [slotsOver]
    omega
  | cons a rest ih =>
    intro st hl ht
    rw [pass1]
    by_cases hcap : GLOBAL_DAILY_CHAT_CAP ≤ st.total
    · rw [if_pos hcap]
      refine ⟨?_, hl⟩
      dsimp only
      omega
    · rw [if_neg hcap]
      dsimp only
      have hrun := runAgent_allSucc env a (env.topics a) h
        (min env.cpa (GLOBAL_DAILY_CHAT_CAP - st.total)) st hl (by omega)
      obtain ⟨hTot, hHit⟩ := hrun
      simp only [hHit, if_neg Bool.false_ne_true]
      have hle := runAgent_total_le env a (env.topics a)
        (min env.cpa (GLOBAL_DAILY_CHAT_CAP - st.total)) st ht
      obtain ⟨hTot2, hHit2⟩ := ih _ hHit hle
      refine ⟨?_, hHit2⟩
      rw [hTot2, hTot, slotsOver_cons]
      by_cases hav : a = "Sherlock" ∨ env.topics a ≠ []
      · rw [if_pos hav, if_pos hav]
        omega
      · rw [if_neg hav, if_neg hav]
        omega

theorem pass2_total_mono (env : ChatEnv) :
    ∀ names st, st.total ≤ (pass2 env names st).1.total := by
  intro names
  induction names with
  | nil => intro st; rw [pass2]
  | cons a rest ih =>
    intro st
    rw [pass2]
    split
    · dsimp only; omega
    · cases hm : msgFor env a (env.topics a) st.sent with
      | none => simpa [hm] using ih st
      | some msg =>
        simp only [hm]
        split
        · exact chatStep_total_ge st (env.oracle st.sent)
        · have h1 := ih (chatStep st (env.oracle st.sent))
          have h2 := chatStep_total_ge st (env.oracle st.sent)
          dsimp only
          omega

/-- C2 (amended): within one account-cycle the chat loops record at
most `GLOBAL_DAILY_CHAT_CAP` (9) successful sends — the `success` and
`total_success_today` counters agree and never pass the cap — and when
every send attempt succeeds they record at least
`min(GLOBAL_DAILY_CHAT_CAP, total available agent slots)` successes.
(The original lower bound conditioned only on the absence of throttled
attempts; non-throttled failures also lower the success count, see the
counterexample.) -/
theorem c2_cap_and_lower_bound (env : ChatEnv) :
    ((chatPhase env).1.total ≤ GLOBAL_DAILY_CHAT_CAP
      ∧ (chatPhase env).1.success = (chatPhase env).1.total)
    ∧ ((∀ k, env.oracle k = .success) →
        min GLOBAL_DAILY_CHAT_CAP (availSlots env) ≤ (chatPhase env).1.total) := by
  have hinit_t : initChat.total = 0 := rfl
  have hinit_s : initChat.success = 0 := rfl
  have hinit_h : initChat.hitLimit = false := rfl
  unfold chatPhase
  dsimp only
  split
  · refine ⟨⟨?_, ?_⟩, ?_⟩
    · exact pass2_total_le env _ _ (pass1_total_le env _ _ (by omega))
    · have h1 := pass1_sync env AGENT_ORDER initChat
      have h2 := pass2_sync env AGENT_ORDER (pass1 env AGENT_ORDER initChat).1
      dsimp only
      omega
    · intro hs
      have hp1 := pass1_allSucc env hs AGENT_ORDER initChat hinit_h (by omega)
      have hmono := pass2_total_mono env AGENT_ORDER (pass1 env AGENT_ORDER initChat).1
      dsimp only
      rw [availSlots] at *
      omega
  · refine ⟨⟨?_, ?_⟩, ?_⟩
    · exact pass1_total_le env _ _ (by omega)
    · have h1 := pass1_sync env AGENT_ORDER initChat
      omega
    · intro hs
      have hp1 := pass1_allSucc env hs AGENT_ORDER initChat hinit_h (by omega)
      rw [availSlots] at *
      omega

/-- Witness for C2 at a concrete input: with two chats per agent, one
topic per agent and an all-success oracle, the allocator stays within
the cap and reaches it (`availSlots envAllSucc = 18`, so the bound is
9). -/
theorem c2_cap_and_lower_bound_witness :
    ((chatPhase envAllSucc).1.total ≤ GLOBAL_DAILY_CHAT_CAP
      ∧ (chatPhase envAllSucc).1.success = (chatPhase envAllSucc).1.total)
    ∧ min GLOBAL_DAILY_CHAT_CAP (availSlots envAllSucc) ≤ (chatPhase envAllSucc).1.total :=
  ⟨(c2_cap_and_lower_bound envAllSucc).1,
   (c2_cap_and_lower_bound envAllSucc).2 (fun _ => rfl)⟩

/-- C2 counterexample: with one chat per agent, one topic per agent and
an oracle whose every send fails with a non-throttled error, no attempt
is throttled, yet 0 successes are recorded — fewer than
`min(GLOBAL_DAILY_CHAT_CAP, total available agent slots) = 9`.  The
claim's lower bound under "no attempt is throttled" is false on the
code. -/
theorem c2_lower_bound_counterexample :
    (∀ att ∈ (chatPhase envAllFail).2, att.outcome ≠ ChatOutcome.throttled)
    ∧ (chatPhase envAllFail).1.total
        < min GLOBAL_DAILY_CHAT_CAP (availSlots envAllFail) := by
  decide

theorem fiveFrom_cons_thr (k : Nat) (l : List ChatOutcome) :
    fiveFrom k (.throttled :: l) = (decide (5 ≤ k + 1) || fiveFrom (k + 1) l) := by
  simp [fiveFrom]

theorem fiveFrom_cons_ne (o : ChatOutcome) (k : Nat) (l : List ChatOutcome)
    (h : o ≠ .throttled) : fiveFrom k (o :: l) = fiveFrom 0 l := by
  simp [fiveFrom, h]

theorem runFrom_cons_thr (k : Nat) (l : List ChatOutcome) :
    runFrom k (.throttled :: l) = runFrom (k + 1) l := by
  simp [runFrom]

theorem runFrom_cons_ne (o : ChatOutcome) (k : Nat) (l : List ChatOutcome)
    (h : o ≠ .throttled) : runFrom k (o :: l) = runFrom 0 l := by
  simp [runFrom, h]

theorem fiveFrom_mono :
    ∀ (l : List ChatOutcome) (k k' : Nat), k ≤ k' →
      fiveFrom k l = true → fiveFrom k' l = true := by
  intro l
  induction l with
  | nil => intro k k' _ h; exact absurd h (by simp [fiveFrom])
  | cons o l ih =>
    intro k k' hk h
    by_cases ho : o = ChatOutcome.throttled
    · subst ho
      rw [fiveFrom_cons_thr] at h ⊢
      rcases Bool.or_eq_true_iff.mp h with h | h
      · apply Bool.or_eq_true_iff.mpr
        left
        simp only [decide_eq_true_eq] at h ⊢
        omega
      · apply Bool.or_eq_true_iff.mpr
        right
        exact ih (k + 1) (k' + 1) (by omega) h
    · rw [fiveFrom_cons_ne o k l ho] at h
      rw [fiveFrom_cons_ne o k' l ho]
      exact h

theorem fiveFrom_false_mono (l : List ChatOutcome) (k k' : Nat) (hk : k ≤ k')
    (h : fiveFrom k' l = false) : fiveFrom k l = false := by
  cases hf : fiveFrom k l with
  | false => rfl
  | true =>
    have ht := fiveFrom_mono l k k' hk hf
    rw [h] at ht
    exact absurd ht Bool.false_ne_true

theorem runFrom_mono :
    ∀ (l : List ChatOutcome) (k k' : Nat), k ≤ k' →
      runFrom k l ≤ runFrom k' l := by
  intro l
  induction l with
  | nil => intro k k' hk; exact hk
  | cons o l ih =>
    intro k k' hk
    by_cases ho : o = ChatOutcome.throttled
    · subst ho
      rw [runFrom_cons_thr, runFrom_cons_thr]
      exact ih (k + 1) (k' + 1) (by omega)
    · rw [runFrom_cons_ne o k l ho, runFrom_cons_ne o k' l ho]

theorem runFrom_append :
    ∀ (l1 l2 : List ChatOutcome) (k : Nat),
      runFrom k (l1 ++ l2) = runFrom (runFrom k l1) l2 := by
  intro l1
  induction l1 with
  | nil => intro l2 k; rfl
  | cons o l1 ih =>
    intro l2 k
    by_cases ho : o = ChatOutcome.throttled
    · subst ho
      rw [List.cons_append, runFrom_cons_thr, runFrom_cons_thr, ih]
    · rw [List.cons_append, runFrom_cons_ne o k _ ho, runFrom_cons_ne o k l1 ho, ih]

theorem fiveFrom_append :
    ∀ (l1 l2 : List ChatOutcome) (k : Nat),
      fiveFrom k (l1 ++ l2) = (fiveFrom k l1 || fiveFrom (runFrom k l1) l2) := by
  intro l1
  induction l1 with
  | nil => intro l2 k; simp [fiveFrom, runFrom]
  | cons o l1 ih =>
    intro l2 k
    by_cases ho : o = ChatOutcome.throttled
    · subst ho
      rw [List.cons_append, fiveFrom_cons_thr, fiveFrom_cons_thr, runFrom_cons_thr,
        ih, Bool.or_assoc]
    · rw [List.cons_append, fiveFrom_cons_ne o k _ ho, fiveFrom_cons_ne o k l1 ho,
        runFrom_cons_ne o k l1 ho, ih]

theorem outcomesOf_append (l1 l2 : List ChatAttempt) :
    outcomesOf (l1 ++ l2) = outcomesOf l1 ++ outcomesOf l2 := by
  simp [outcomesOf]

theorem chatStep_hit_cases (st : ChatState) (o : ChatOutcome) (h : st.hitLimit = false) :
    (chatStep st o).hitLimit = true → o = .throttled ∧ 5 ≤ st.consec + 1 := by
  cases o <;> simp [chatStep, h]

theorem chatStep_throttled_nohit (st : ChatState) (h : st.hitLimit = false)
    (h' : (chatStep st .throttled).hitLimit = false) : st.consec + 1 < 5 := by
  simp [chatStep, h] at h'
  omega

/-- Soundness of the consecutive-429 counter over one agent's inner
loop: starting with the flag down, if the loop ends with the flag still
down then no five-consecutive-throttled streak occurred in its trace
(scanning from the entry counter) and the entry-relative streak is
dominated by the exit counter; if the flag went up, the trace ends at
the throttled attempt that tripped it. -/
theorem runAgent_streak (env : ChatEnv) (a : String) (pool : List String) :
    ∀ n st, st.hitLimit = false →
      ((runAgent env a pool n st).1.hitLimit = false →
        fiveFrom st.consec (outcomesOf (runAgent env a pool n st).2) = false
        ∧ runFrom st.consec (outcomesOf (runAgent env a pool n st).2)
            ≤ (runAgent env a pool n st).1.consec)
      ∧ ((runAgent env a pool n st).1.hitLimit = true →
        ∃ pre att, (runAgent env a pool n st).2 = pre ++ [att]
          ∧ att.outcome = .throttled) := by
  intro n
  induction n with
  | zero =>
    intro st hl
    rw [runAgent]
    exact ⟨fun _ => ⟨rfl, le_refl _⟩, fun h => absurd h (by simp [hl])⟩
  | succ n ih =>
    intro st hl
    rw [runAgent]
    split
    · exact ⟨fun _ => ⟨rfl, le_refl _⟩, fun h => absurd h (by simp [hl])⟩
    · cases hm : msgFor env a pool st.sent with
      | none =>
        simp only [hm]
        exact ⟨fun _ => ⟨rfl, le_refl _⟩, fun h => absurd h (by simp [hl])⟩
      | some msg =>
        simp only [hm]
        by_cases hhit : (chatStep st (env.oracle st.sent)).hitLimit = true
        · rw [if_pos hhit]
          refine ⟨fun h => absurd hhit (by simp_all), fun _ => ⟨[], _, rfl, ?_⟩⟩
          exact (chatStep_hit_cases st (env.oracle st.sent) hl hhit).1
        · rw [if_neg hhit]
          have hhit' : (chatStep st (env.oracle st.sent)).hitLimit = false := by
            simp only [Bool.not_eq_true] at hhit
            exact hhit
          have IH := ih (chatStep st (env.oracle st.sent)) hhit'
          constructor
          · intro hfin
            have IH1 := IH.1 hfin
            dsimp only at hfin ⊢
            simp only [outcomesOf, List.map_cons] at IH1 ⊢
            rcases ho : env.oracle st.sent with _ | _ | _
            · rw [ho] at IH1
              have hc : (chatStep st .success).consec = 0 := by simp [chatStep]
              rw [hc] at IH1
              rw [fiveFrom_cons_ne _ _ _ (by simp), runFrom_cons_ne _ _ _ (by simp)]
              exact ⟨IH1.1, IH1.2⟩
            · rw [ho] at IH1
              have hnl : st.consec + 1 < 5 := by
                apply chatStep_throttled_nohit st hl
                rw [← ho]
                exact hhit'
              have hc : (chatStep st .throttled).consec = st.consec + 1 := by
                simp [chatStep]
              rw [hc] at IH1
              rw [fiveFrom_cons_thr, runFrom_cons_thr]
              refine ⟨?_, IH1.2⟩
              rw [IH1.1]
              simp only [Bool.or_false, decide_eq_false_iff_not]
              omega
            · rw [ho] at IH1
              have hc : (chatStep st .failure).consec = st.consec := by
                simp [chatStep]
              rw [hc] at IH1
              rw [fiveFrom_cons_ne _ _ _ (by simp), runFrom_cons_ne _ _ _ (by simp)]
              refine ⟨fiveFrom_false_mono _ 0 st.consec (Nat.zero_le _) IH1.1, ?_⟩
              calc runFrom 0 (List.map ChatAttempt.outcome
                    (runAgent env a pool n (chatStep st ChatOutcome.failure)).2)
                  ≤ runFrom st.consec (List.map ChatAttempt.outcome
                    (runAgent env a pool n (chatStep st ChatOutcome.failure)).2) :=
                    runFrom_mono _ 0 st.consec (Nat.zero_le _)
                _ ≤ _ := IH1.2
          · intro hfin
            dsimp only at hfin
            obtain ⟨pre, att, hpre, hatt⟩ := IH.2 hfin
            exact ⟨⟨a, msg, env.oracle st.sent⟩ :: pre, att, by rw [hpre]; simp, hatt⟩

/-- The streak soundness of `runAgent_streak`, lifted over the whole
first per-agent pass. -/
theorem pass1_streak (env : ChatEnv) :
    ∀ names st, st.hitLimit = false →
      ((pass1 env names st).1.hitLimit = false →
        fiveFrom st.consec (outcomesOf (pass1 env names st).2) = false
        ∧ runFrom st.consec (outcomesOf (pass1 env names st).2)
            ≤ (pass1 env names st).1.consec)
      ∧ ((pass1 env names st).1.hitLimit = true →
        ∃ pre att, (pass1 env names st).2 = pre ++ [att]
          ∧ att.outcome = .throttled) := by
  intro names
  induction names with
  | nil =>
    intro st hl
    rw [pass1]
    exact ⟨fun _ => ⟨rfl, le_refl _⟩, fun h => absurd h (by simp [hl])⟩
  | cons a rest ih =>
    intro st hl
    rw [pass1]
    split
    · exact ⟨fun _ => ⟨rfl, le_refl _⟩, fun h => absurd h (by simp [hl])⟩
    · dsimp only
      have HA := runAgent_streak env a (env.topics a)
        (min env.cpa (GLOBAL_DAILY_CHAT_CAP - st.total)) st hl
      split
      · rename_i hr
        exact ⟨fun h => absurd h (by simp [hr]), fun _ => HA.2 hr⟩
      · rename_i hr
        have hr' : (runAgent env a (env.topics a)
            (min env.cpa (GLOBAL_DAILY_CHAT_CAP - st.total)) st).1.hitLimit = false := by
          simp only [Bool.not_eq_true] at hr
          exact hr
        have HA1 := HA.1 hr'
        have IH := ih (runAgent env a (env.topics a)
          (min env.cpa (GLOBAL_DAILY_CHAT_CAP - st.total)) st).1 hr'
        constructor
        · intro hfin
          dsimp only at hfin
          have IH1 := IH.1 hfin
          dsimp only
          rw [outcomesOf_append, fiveFrom_append, runFrom_append]
          constructor
          · rw [HA1.1, Bool.false_or]
            exact fiveFrom_false_mono _ _ _ HA1.2 IH1.1
          · calc runFrom (runFrom st.consec (outcomesOf (runAgent env a (env.topics a)
                  (min env.cpa (GLOBAL_DAILY_CHAT_CAP - st.total)) st).2))
                  (outcomesOf (pass1 env rest (runAgent env a (env.topics a)
                  (min env.cpa (GLOBAL_DAILY_CHAT_CAP - st.total)) st).1).2)
                ≤ runFrom (runAgent env a (env.topics a)
                  (min env.cpa (GLOBAL_DAILY_CHAT_CAP - st.total)) st).1.consec
                  (outcomesOf (pass1 env rest (runAgent env a (env.topics a)
                  (min env.cpa (GLOBAL_DAILY_CHAT_CAP - st.total)) st).1).2) :=
                  runFrom_mono _ _ _ HA1.2
              _ ≤ _ := IH1.2
        · intro hfin
          dsimp only at hfin
          obtain ⟨pre, att, hpre, hatt⟩ := IH.2 hfin
          refine ⟨(runAgent env a (env.topics a)
            (min env.cpa (GLOBAL_DAILY_CHAT_CAP - st.total)) st).2 ++ pre, att, ?_, hatt⟩
          dsimp only
          rw [hpre, List.append_assoc]

/-- The streak soundness of the consecutive-429 counter over the
balancing pass. -/
theorem pass2_streak (env : ChatEnv) :
    ∀ names st, st.hitLimit = false →
      ((pass2 env names st).1.hitLimit = false →
        fiveFrom st.consec (outcomesOf (pass2 env names st).2) = false
        ∧ runFrom st.consec (outcomesOf (pass2 env names st).2)
            ≤ (pass2 env names st).1.consec)
      ∧ ((pass2 env names st).1.hitLimit = true →
        ∃ pre att, (pass2 env names st).2 = pre ++ [att]
          ∧ att.outcome = .throttled) := by
  intro names
  induction names with
  | nil =>
    intro st hl
    rw [pass2]
    exact ⟨fun _ => ⟨rfl, le_refl _⟩, fun h => absurd h (by simp [hl])⟩
  | cons a rest ih =>
    intro st hl
    rw [pass2]
    split
    · exact ⟨fun _ => ⟨rfl, le_refl _⟩, fun h => absurd h (by simp [hl])⟩
    · cases hm : msgFor env a (env.topics a) st.sent with
      | none =>
        simp only [hm]
        exact ih st hl
      | some msg =>
        simp only [hm]
        by_cases hhit : (chatStep st (env.oracle st.sent)).hitLimit = true
        · rw [if_pos hhit]
          refine ⟨fun h => absurd hhit (by simp_all), fun _ => ⟨[], _, rfl, ?_⟩⟩
          exact (chatStep_hit_cases st (env.oracle st.sent) hl hhit).1
        · rw [if_neg hhit]
          have hhit' : (chatStep st (env.oracle st.sent)).hitLimit = false := by
            simp only [Bool.not_eq_true] at hhit
            exact hhit
          have IH := ih (chatStep st (env.oracle st.sent)) hhit'
          constructor
          · intro hfin
            have IH1 := IH.1 hfin
            dsimp only at hfin ⊢
            simp only [outcomesOf, List.map_cons] at IH1 ⊢
            rcases ho : env.oracle st.sent with _ | _ | _
            · rw [ho] at IH1
              have hc : (chatStep st .success).consec = 0 := by simp [chatStep]
              rw [hc] at IH1
              rw [fiveFrom_cons_ne _ _ _ (by simp), runFrom_cons_ne _ _ _ (by simp)]
              exact ⟨IH1.1, IH1.2⟩
            · rw [ho] at IH1
              have hnl : st.consec + 1 < 5 := by
                apply chatStep_throttled_nohit st hl
                rw [← ho]
                exact hhit'
              have hc : (chatStep st .throttled).consec = st.consec + 1 := by
                simp [chatStep]
              rw [hc] at IH1
              rw [fiveFrom_cons_thr, runFrom_cons_thr]
              refine ⟨?_, IH1.2⟩
              rw [IH1.1]
              simp only [Bool.or_false, decide_eq_false_iff_not]
              omega
            · rw [ho] at IH1
              have hc : (chatStep st .failure).consec = st.consec := by
                simp [chatStep]
              rw [hc] at IH1
              rw [fiveFrom_cons_ne _ _ _ (by simp), runFrom_cons_ne _ _ _ (by simp)]
              refine ⟨fiveFrom_false_mono _ 0 st.consec (Nat.zero_le _) IH1.1, ?_⟩
              calc runFrom 0 (List.map ChatAttempt.outcome
                    (pass2 env rest (chatStep st ChatOutcome.failure)).2)
                  ≤ runFrom st.consec (List.map ChatAttempt.outcome
                    (pass2 env rest (chatStep st ChatOutcome.failure)).2) :=
                    runFrom_mono _ 0 st.consec (Nat.zero_le _)
                _ ≤ _ := IH1.2
          · intro hfin
            dsimp only at hfin
            obtain ⟨pre, att, hpre, hatt⟩ := IH.2 hfin
            exact ⟨⟨a, msg, env.oracle st.sent⟩ :: pre, att, by rw [hpre]; simp, hatt⟩

/-- C1 (amended): five consecutive throttled chat attempts — counted
across agents and across the balancing pass, never reset by switching
agents — trip the `hit_global_limit` flag, and the flag trips exactly
at a throttled attempt that is the last chat attempt of the cycle, so
no further chat attempts are issued.  (The original claim also said no
staking-phase operations are issued for that account; the code runs
the daily quiz and `staking_cycle` unconditionally after the chat
loops, see the counterexample.) -/
theorem c1_five_consecutive_throttles_trip_global_limit (env : ChatEnv) :
    (fiveFrom 0 (outcomesOf (chatPhase env).2) = true →
      (chatPhase env).1.hitLimit = true)
    ∧ ((chatPhase env).1.hitLimit = true →
      ∃ pre att, (chatPhase env).2 = pre ++ [att]
        ∧ att.outcome = ChatOutcome.throttled) := by
  have einit : initChat.consec = 0 := rfl
  have H1 := pass1_streak env AGENT_ORDER initChat rfl
  unfold chatPhase
  dsimp only
  split
  · rename_i hb
    have hb3 : (pass1 env AGENT_ORDER initChat).1.hitLimit = false := hb.2.2
    have H2 := pass2_streak env AGENT_ORDER (pass1 env AGENT_ORDER initChat).1 hb3
    constructor
    · intro h5
      dsimp only at h5 ⊢
      by_cases hfin : (pass2 env AGENT_ORDER
          (pass1 env AGENT_ORDER initChat).1).1.hitLimit = true
      · exact hfin
      · exfalso
        simp only [Bool.not_eq_true] at hfin
        have H11 := H1.1 hb3
        rw [einit] at H11
        have H21 := H2.1 hfin
        rw [outcomesOf_append, fiveFrom_append] at h5
        rcases Bool.or_eq_true_iff.mp h5 with h | h
        · rw [H11.1] at h
          exact Bool.false_ne_true h
        · have hmono := fiveFrom_mono _ _ _ H11.2 h
          rw [H21.1] at hmono
          exact Bool.false_ne_true hmono
    · intro hfin
      dsimp only at hfin ⊢
      obtain ⟨pre, att, hpre, hatt⟩ := H2.2 hfin
      exact ⟨(pass1 env AGENT_ORDER initChat).2 ++ pre, att,
        by rw [hpre, List.append_assoc], hatt⟩
  · rename_i hb
    constructor
    · intro h5
      by_cases hfin : (pass1 env AGENT_ORDER initChat).1.hitLimit = true
      · exact hfin
      · exfalso
        simp only [Bool.not_eq_true] at hfin
        have H11 := H1.1 hfin
        rw [einit] at H11
        rw [H11.1] at h5
        exact Bool.false_ne_true h5
    · exact H1.2

/-- Witness for C1 at a concrete input: with nine chats per agent and
an oracle throttling the first five sends, the trace contains five
consecutive throttled attempts and the global-limit flag is tripped. -/
theorem c1_five_consecutive_throttles_trip_global_limit_witness :
    (chatPhase envFiveThrottle).1.hitLimit = true :=
  (c1_five_consecutive_throttles_trip_global_limit envFiveThrottle).1 (by decide)

/-- Counterexample to C1 as stated: in a run of `process_account` whose
five first chat sends are throttled, the global-limit flag is tripped
(`hit = true`), and yet the staking phase still runs for that same
account in the same cycle — here it issues a stake call (the second
entry of the staking call trace) and persists state.  `process_account`
(main.py lines 625-643) runs the quiz and `staking_cycle`
unconditionally after the chat section, with no check of
`hit_global_limit`. -/
theorem c1_staking_runs_despite_global_limit_counterexample :
    (process_account (.ok 0 0) (.ok 0 0) envFiveThrottle (.okq true) soOkThenThrottle 0
      storeEmpty "0xacc").hit = true
    ∧ (process_account (.ok 0 0) (.ok 0 0) envFiveThrottle (.okq true) soOkThenThrottle 0
        storeEmpty "0xacc").stakeOps[1]? = some (StakeOp.stakeTo "Kite AI Agents")
    ∧ (process_account (.ok 0 0) (.ok 0 0) envFiveThrottle (.okq true) soOkThenThrottle 0
        storeEmpty "0xacc").stakeSaved = true :=
  ⟨by rfl, by rfl, by rfl⟩

theorem pass2_agents_sublist (env : ChatEnv) :
    ∀ names st, ((pass2 env names st).2.map ChatAttempt.agent).Sublist names := by
  intro names
  induction names with
  | nil => intro st; rw [pass2]; simp
  | cons a rest ih =>
    intro st
    rw [pass2]
    split
    · simp
    · cases hm : msgFor env a (env.topics a) st.sent with
      | none =>
        simp only [hm]
        exact (ih st).cons a
      | some msg =>
        simp only [hm]
        split
        · exact List.Sublist.cons₂ a (List.nil_sublist rest)
        · exact List.Sublist.cons₂ a (ih _)

/-- C6: the balancing pass runs exactly when `chat_per_agent = 1`,
capacity remains below the cap and the global-limit flag is down; it
appends its attempts after the first pass's, visits agents in
`AGENT_ORDER` order at most once each (so at most one additional send
per agent), and otherwise the chat section is the first pass alone. -/
theorem c6_balancing_pass (env : ChatEnv) :
    (balancingCond env (pass1 env AGENT_ORDER initChat).1 →
      chatPhase env
        = ((pass2 env AGENT_ORDER (pass1 env AGENT_ORDER initChat).1).1,
           (pass1 env AGENT_ORDER initChat).2
             ++ (pass2 env AGENT_ORDER (pass1 env AGENT_ORDER initChat).1).2)
      ∧ ((pass2 env AGENT_ORDER (pass1 env AGENT_ORDER initChat).1).2.map
          ChatAttempt.agent).Sublist AGENT_ORDER
      ∧ ∀ a, ((pass2 env AGENT_ORDER (pass1 env AGENT_ORDER initChat).1).2.map
          ChatAttempt.agent).count a ≤ 1)
    ∧ (¬ balancingCond env (pass1 env AGENT_ORDER initChat).1 →
      chatPhase env = pass1 env AGENT_ORDER initChat) := by
  constructor
  · intro hb
    refine ⟨?_, pass2_agents_sublist env AGENT_ORDER _, ?_⟩
    · unfold chatPhase
      rw [if_pos hb]
    · intro a
      have hs := (pass2_agents_sublist env AGENT_ORDER
        (pass1 env AGENT_ORDER initChat).1).count_le a
      have hn : AGENT_ORDER.count a ≤ 1 :=
        List.nodup_iff_count_le_one.mp (by decide) a
      omega
  · intro hb
    unfold chatPhase
    rw [if_neg hb]

/-- Witness for C6 at a concrete input: `envAllFail` has
`chat_per_agent = 1`, ends the first pass below the cap with the flag
down, so the balancing pass runs and its trace is appended. -/
theorem c6_balancing_pass_witness :
    chatPhase envAllFail
      = ((pass2 envAllFail AGENT_ORDER (pass1 envAllFail AGENT_ORDER initChat).1).1,
         (pass1 envAllFail AGENT_ORDER initChat).2
           ++ (pass2 envAllFail AGENT_ORDER (pass1 envAllFail AGENT_ORDER initChat).1).2) :=
  ((c6_balancing_pass envAllFail).1 (by decide)).1

/-- C9: Sherlock with an empty topic pool is never silently skipped —
every attempt of its inner loop carries the fallback message, which
contains the fetched transaction hash, and absent throttling and cap
exhaustion the loop issues exactly one attempt per requested slot;
any other agent with an empty pool is skipped entirely, its state
(success and failure counters included) unchanged, in both passes. -/
theorem c9_sherlock_fallback (env : ChatEnv) :
    (∀ n st att, att ∈ (runAgent env "Sherlock" [] n st).2 →
      att.msg = fallbackMsg env.txh ∧ strContains att.msg env.txh = true)
    ∧ (∀ n st, (∀ k, env.oracle k ≠ .throttled) → st.hitLimit = false →
        st.total + n ≤ GLOBAL_DAILY_CHAT_CAP →
        (runAgent env "Sherlock" [] n st).2.length = n)
    ∧ (∀ a n st, a ≠ "Sherlock" → runAgent env a [] n st = (st, []))
    ∧ (∀ a rest st, a ≠ "Sherlock" → env.topics a = [] →
        st.total < GLOBAL_DAILY_CHAT_CAP →
        pass2 env (a :: rest) st = pass2 env rest st) := by
  have hmsg : ∀ k, msgFor env "Sherlock" [] k = some (fallbackMsg env.txh) := by
    intro k
    simp [msgFor]
  refine ⟨?_, ?_, ?_, ?_⟩
  · intro n
    induction n with
    | zero =>
      intro st att h
      rw [runAgent] at h
      simp at h
    | succ n ih =>
      intro st att h
      rw [runAgent] at h
      split at h
      · simp at h
      · rw [hmsg st.sent] at h
        simp only at h
        split at h
        · simp only [List.mem_singleton] at h
          subst h
          exact ⟨rfl, strContains_append_right _ _⟩
        · simp only [List.mem_cons] at h
          rcases h with h | h
          · subst h
            exact ⟨rfl, strContains_append_right _ _⟩
          · exact ih _ att h
  · intro n
    induction n with
    | zero =>
      intro st _ _ _
      rw [runAgent]
      rfl
    | succ n ih =>
      intro st hThr hl hcap
      rw [runAgent]
      rw [if_neg (by omega)]
      rw [hmsg st.sent]
      simp only
      have hh' : (chatStep st (env.oracle st.sent)).hitLimit = false := by
        cases hoo : env.oracle st.sent with
        | success => simp [chatStep, hl]
        | throttled => exact absurd hoo (hThr st.sent)
        | failure => simp [chatStep, hl]
      rw [if_neg (by simp [hh'])]
      have htot := chatStep_total_le st (env.oracle st.sent)
      have := ih (chatStep st (env.oracle st.sent)) hThr hh' (by omega)
      simp only [List.length_cons, this]
  · intro a n st ha
    cases n with
    | zero => rw [runAgent]
    | succ n =>
      rw [runAgent]
      split
      · rfl
      · simp [msgFor, ha]
  · intro a rest st ha htop hlt
    rw [pass2]
    rw [if_neg (by omega)]
    simp [msgFor, ha, htop]

/-- Witness for C9 at a concrete input: with every pool empty and a
success oracle, Sherlock's loop issues exactly one attempt for one
requested slot, while Professor's loop issues none and leaves the
state untouched. -/
theorem c9_sherlock_fallback_witness :
    (runAgent envEmptyPools "Sherlock" [] 1 initChat).2.length = 1
    ∧ runAgent envEmptyPools "Professor" [] 1 initChat = (initChat, []) :=
  ⟨(c9_sherlock_fallback envEmptyPools).2.1 1 initChat
      (fun _ h => ChatOutcome.noConfusion h) rfl (by decide),
   (c9_sherlock_fallback envEmptyPools).2.2.1 "Professor" 1 initChat (by decide)⟩

theorem plookup_pset {α : Type} (m : List (String × α)) (k k' : String) (v : α) :
    plookup k' (pset k v m) = if k' = k then some v else plookup k' m := by
  induction m with
  | nil =>
    by_cases h : k' = k
    · subst h
      simp [pset, plookup]
    · have h2 : ¬ k = k' := fun hh => h hh.symm
      simp [pset, plookup, h, h2]
  | cons kv rest ih =>
    obtain ⟨k0, v0⟩ := kv
    by_cases h0 : k0 = k
    · subst h0
      by_cases h1 : k' = k0
      · subst h1
        simp [pset, plookup]
      · have h2 : ¬ k0 = k' := fun hh => h1 hh.symm
        simp [pset, plookup, h1, h2]
    · have hps : pset k v ((k0, v0) :: rest) = (k0, v0) :: pset k v rest := by
        simp [pset, h0]
      rw [hps]
      by_cases h1 : k0 = k'
      · subst h1
        have h2 : ¬ k0 = k := h0
        simp [plookup, h2]
      · simp [plookup, h1, ih]

theorem pset_pset_same {α : Type} (m : List (String × α)) (k : String) (v v' : α) :
    pset k v (pset k v' m) = pset k v m := by
  induction m with
  | nil => simp [pset]
  | cons kv rest ih =>
    obtain ⟨k0, v0⟩ := kv
    by_cases h0 : k0 = k
    · subst h0
      simp [pset]
    · simp [pset, h0, ih]

theorem plookup_append {α : Type} (m1 m2 : List (String × α)) (k : String) :
    plookup k (m1 ++ m2)
      = if (plookup k m1).isSome then plookup k m1 else plookup k m2 := by
  induction m1 with
  | nil => simp [plookup]
  | cons kv rest ih =>
    obtain ⟨k0, v0⟩ := kv
    by_cases h0 : k0 = k
    · subst h0
      simp [plookup]
    · simp [plookup, h0, ih]

theorem plookup_insertIfAbsent_some {α : Type} (m : List (String × α))
    (k k' : String) (v w : α) (h : plookup k' m = some w) :
    plookup k' (insertIfAbsent m k v) = some w := by
  unfold insertIfAbsent
  split
  · exact h
  · rw [plookup_append, h]
    rfl

theorem plookup_insertIfAbsent_self {α : Type} (m : List (String × α))
    (k : String) (v : α) :
    (plookup k (insertIfAbsent m k v)).isSome = true := by
  unfold insertIfAbsent
  split
  · assumption
  · rename_i h
    rw [plookup_append]
    simp only [Option.not_isSome_iff_eq_none] at h
    rw [h]
    simp [plookup]

theorem plookup_insertIfAbsent_none {α : Type} (m : List (String × α))
    (k k' : String) (v : α) (h : plookup k' m = none) :
    plookup k' (insertIfAbsent m k v) = if k' = k then some v else none := by
  unfold insertIfAbsent
  split
  · rename_i hp
    rw [h]
    split
    · rename_i he
      subst he
      rw [h] at hp
      simp at hp
    · rfl
  · rw [plookup_append, h]
    simp only [Option.isSome_none, Bool.false_eq_true, if_false]
    by_cases he : k' = k
    · subst he
      simp [plookup]
    · have h2 : ¬ k = k' := fun hh => he hh.symm
      simp [plookup, he, h2]

theorem plookup_insertIfAbsent_ne {α : Type} (m : List (String × α))
    (k k' : String) (v : α) (h : k' ≠ k) :
    plookup k' (insertIfAbsent m k v) = plookup k' m := by
  cases hp : plookup k' m with
  | some w => exact plookup_insertIfAbsent_some m k k' v w hp
  | none =>
    rw [plookup_insertIfAbsent_none m k k' v hp, if_neg h]

theorem insertIfAbsent_of_present {α : Type} (m : List (String × α))
    (k : String) (v : α) (h : (plookup k m).isSome = true) :
    insertIfAbsent m k v = m := by
  simp [insertIfAbsent, h]

theorem foldIns_some :
    ∀ (names : List String) (m : List (String × SubnetRow)) (sub : String)
      (w : SubnetRow), plookup sub m = some w →
      plookup sub (foldIns names m) = some w := by
  intro names
  induction names with
  | nil => intro m sub w h; exact h
  | cons n rest ih =>
    intro m sub w h
    exact ih _ sub w (plookup_insertIfAbsent_some m (SUBNETS n) sub (defaultRow n) w h)

theorem foldIns_mem_isSome :
    ∀ (names : List String) (m : List (String × SubnetRow)) (name : String),
      name ∈ names → (plookup (SUBNETS name) (foldIns names m)).isSome = true := by
  intro names
  induction names with
  | nil => intro m name h; simp at h
  | cons n rest ih =>
    intro m name h
    rcases List.mem_cons.mp h with h | h
    · subst h
      have hs := plookup_insertIfAbsent_self m (SUBNETS name) (defaultRow name)
      obtain ⟨w, hw⟩ := Option.isSome_iff_exists.mp hs
      have hf := foldIns_some rest _ (SUBNETS name) w hw
      show (plookup (SUBNETS name)
        (foldIns rest (insertIfAbsent m (SUBNETS name) (defaultRow name)))).isSome = true
      rw [hf]
      rfl
    · exact ih _ name h

theorem foldIns_of_present :
    ∀ (names : List String) (m : List (String × SubnetRow)),
      (∀ name ∈ names, (plookup (SUBNETS name) m).isSome = true) →
      foldIns names m = m := by
  intro names
  induction names with
  | nil => intro m _; rfl
  | cons n rest ih =>
    intro m h
    have h0 : insertIfAbsent m (SUBNETS n) (defaultRow n) = m :=
      insertIfAbsent_of_present m (SUBNETS n) (defaultRow n) (h n (by simp))
    show foldIns rest (insertIfAbsent m (SUBNETS n) (defaultRow n)) = m
    rw [h0]
    exact ih m (fun name hm => h name (by simp [hm]))

theorem foldIns_new_default :
    ∀ (names : List String) (m : List (String × SubnetRow)) (sub : String)
      (row : SubnetRow), plookup sub m = none →
      plookup sub (foldIns names m) = some row →
      ∃ name, row = defaultRow name := by
  intro names
  induction names with
  | nil =>
    intro m sub row h0 h1
    have hnil : foldIns [] m = m := rfl
    rw [hnil, h0] at h1
    exact absurd h1 (by simp)
  | cons n rest ih =>
    intro m sub row h0 h1
    cases h2 : plookup sub (insertIfAbsent m (SUBNETS n) (defaultRow n)) with
    | none => exact ih _ sub row h2 h1
    | some w =>
      have hw := foldIns_some rest _ sub w h2
      have : foldIns (n :: rest) m
          = foldIns rest (insertIfAbsent m (SUBNETS n) (defaultRow n)) := rfl
      rw [this, hw] at h1
      have hrw : row = w := by
        injection h1.symm
      rw [plookup_insertIfAbsent_none m (SUBNETS n) sub (defaultRow n) h0] at h2
      by_cases he : sub = SUBNETS n
      · rw [if_pos he] at h2
        refine ⟨n, ?_⟩
        rw [hrw]
        injection h2.symm
      · rw [if_neg he] at h2
        exact absurd h2 (by simp)

/-- C10: `ensure_account_state` is idempotent, leaves every existing
(account, target) record untouched, and any record it adds is the
default one — not staked and with all three timestamps unset. -/
theorem c10_ensure_account_state_idempotent_frame (st : Store) (a : String) :
    ensure_account_state (ensure_account_state st a) a = ensure_account_state st a
    ∧ (∀ a' sub row,
        (plookup a' st.accounts).bind (plookup sub) = some row →
        (plookup a' (ensure_account_state st a).accounts).bind (plookup sub) = some row)
    ∧ (∀ a' sub row,
        (plookup a' st.accounts).bind (plookup sub) = none →
        (plookup a' (ensure_account_state st a).accounts).bind (plookup sub) = some row →
        row.staked = false ∧ row.last_stake_at = none
        ∧ row.last_claim_at = none ∧ row.last_unstake_at = none) := by
  have hself := plookup_insertIfAbsent_self st.accounts a ([] : List (String × SubnetRow))
  obtain ⟨m, hm⟩ := Option.isSome_iff_exists.mp hself
  have hens : ensure_account_state st a
      = ⟨pset a (foldIns SUBNET_ORDER m) (insertIfAbsent st.accounts a [])⟩ := by
    unfold ensure_account_state
    dsimp only
    rw [hm]
    rfl
  have hlook : plookup a (ensure_account_state st a).accounts
      = some (foldIns SUBNET_ORDER m) := by
    rw [hens]
    exact (plookup_pset _ a a _).trans (if_pos rfl)
  refine ⟨?_, ?_, ?_⟩
  · have hpres : (∀ name ∈ SUBNET_ORDER,
        (plookup (SUBNETS name) (foldIns SUBNET_ORDER m)).isSome = true) :=
      fun name hn => foldIns_mem_isSome SUBNET_ORDER m name hn
    rw [hens]
    unfold ensure_account_state
    dsimp only
    have hlk : plookup a (pset a (foldIns SUBNET_ORDER m)
        (insertIfAbsent st.accounts a [])) = some (foldIns SUBNET_ORDER m) :=
      (plookup_pset _ a a _).trans (if_pos rfl)
    rw [insertIfAbsent_of_present _ a [] (by rw [hlk]; rfl), hlk]
    simp only [Option.getD_some]
    rw [foldIns_of_present SUBNET_ORDER _ hpres]
    simp only [Store.mk.injEq]
    exact pset_pset_same _ a _ _
  · intro a' sub row h
    by_cases ha' : a' = a
    · subst ha'
      cases hacc : plookup a' st.accounts with
      | none => rw [hacc] at h; exact absurd h (by simp)
      | some m0 =>
        have hA1 : insertIfAbsent st.accounts a' [] = st.accounts :=
          insertIfAbsent_of_present _ a' [] (by rw [hacc]; rfl)
        have hm0 : m = m0 := by
          rw [hA1, hacc] at hm
          injection hm with he
          exact he.symm
        subst hm0
        rw [hlook]
        rw [hacc] at h
        exact foldIns_some SUBNET_ORDER m sub row h
    · rw [hens]
      show (plookup a' (pset a (foldIns SUBNET_ORDER m)
        (insertIfAbsent st.accounts a []))).bind (plookup sub) = some row
      rw [plookup_pset, if_neg ha', plookup_insertIfAbsent_ne st.accounts a a' [] ha']
      exact h
  · intro a' sub row h0 h1
    by_cases ha' : a' = a
    · subst ha'
      rw [hlook] at h1
      have hsubm : plookup sub m = none := by
        cases hacc : plookup a' st.accounts with
        | none =>
          have : plookup a' (insertIfAbsent st.accounts a' []) = some [] := by
            rw [plookup_insertIfAbsent_none st.accounts a' a' [] hacc, if_pos rfl]
          rw [this] at hm
          have : m = ([] : List (String × SubnetRow)) := by injection hm.symm
          rw [this]
          rfl
        | some m0 =>
          have hA1 : insertIfAbsent st.accounts a' [] = st.accounts :=
            insertIfAbsent_of_present _ a' [] (by rw [hacc]; rfl)
          have hm0 : m = m0 := by
            rw [hA1, hacc] at hm
            injection hm with he
            exact he.symm
          rw [hacc] at h0
          rw [hm0]
          exact h0
      obtain ⟨name, hname⟩ := foldIns_new_default SUBNET_ORDER m sub row hsubm h1
      rw [hname]
      exact ⟨rfl, rfl, rfl, rfl⟩
    · rw [hens] at h1
      have h1' : (plookup a' (pset a (foldIns SUBNET_ORDER m)
          (insertIfAbsent st.accounts a []))).bind (plookup sub) = some row := h1
      rw [plookup_pset, if_neg ha',
        plookup_insertIfAbsent_ne st.accounts a a' [] ha'] at h1'
      rw [h0] at h1'
      exact absurd h1' (by simp)

/-- Witness for C10 at a concrete input: the record already present in
`storeStaked` survives `ensure_account_state` unchanged. -/
theorem c10_ensure_account_state_idempotent_frame_witness :
    (plookup "0xacc" (ensure_account_state storeStaked "0xacc").accounts).bind
      (plookup (SUBNETS "Kite AI Agents"))
      = some ⟨"Kite AI Agents", true, some 0, none, none⟩ :=
  (c10_ensure_account_state_idempotent_frame storeStaked "0xacc").2.1
    "0xacc" (SUBNETS "Kite AI Agents") ⟨"Kite AI Agents", true, some 0, none, none⟩
    (by decide)

/-- C4: the unstake phase issues an `undelegate` only for a staked
target whose elapsed hours reach 24: under 24 hours the step leaves
the state untouched (no call, no flag or timestamp change) and only
reports the remaining wait `int(24*3600 - hrs*3600)`; that report
equals `24h − elapsed` rounded down to the whole second; a missing or
unparseable `last_stake_at` makes `hours_since` return `None`, which
is read as elapsed 0, so no unstake is attempted and no error is
raised; an unstaked target is skipped outright. -/
theorem c4_unstake_time_gate (oracle : Nat → RR) (now : ℚ) :
    (∀ name rest s, (getRow s.acct (SUBNETS name)).staked = true →
      (hours_since now (getRow s.acct (SUBNETS name)).last_stake_at).getD 0
        < UNSTAKE_AFTER_HOURS →
      unstakeLoop oracle now (name :: rest) s
        = ⟨(unstakeLoop oracle now rest s).s,
           (unstakeLoop oracle now rest s).ops,
           (name, truncQ (24 * 3600 -
             ((hours_since now (getRow s.acct (SUBNETS name)).last_stake_at).getD 0)
               * 3600)) :: (unstakeLoop oracle now rest s).reports,
           (unstakeLoop oracle now rest s).aborted⟩)
    ∧ (∀ t : ℚ, (hours_since now (some t)).getD 0 < UNSTAKE_AFTER_HOURS →
        truncQ (24 * 3600 - ((hours_since now (some t)).getD 0) * 3600)
          = ⌊(86400 : ℚ) - (now - t)⌋)
    ∧ (∀ name rest s, (getRow s.acct (SUBNETS name)).staked = true →
        (getRow s.acct (SUBNETS name)).last_stake_at = none →
        (hours_since now (getRow s.acct (SUBNETS name)).last_stake_at).getD 0 = 0
        ∧ unstakeLoop oracle now (name :: rest) s
          = ⟨(unstakeLoop oracle now rest s).s,
             (unstakeLoop oracle now rest s).ops,
             (name, truncQ (24 * 3600 - 0 * 3600))
               :: (unstakeLoop oracle now rest s).reports,
             (unstakeLoop oracle now rest s).aborted⟩)
    ∧ (∀ name rest s, (getRow s.acct (SUBNETS name)).staked = false →
        unstakeLoop oracle now (name :: rest) s = unstakeLoop oracle now rest s) := by
  have key : ∀ name rest s, (getRow s.acct (SUBNETS name)).staked = true →
      (hours_since now (getRow s.acct (SUBNETS name)).last_stake_at).getD 0
        < UNSTAKE_AFTER_HOURS →
      unstakeLoop oracle now (name :: rest) s
        = ⟨(unstakeLoop oracle now rest s).s,
           (unstakeLoop oracle now rest s).ops,
           (name, truncQ (24 * 3600 -
             ((hours_since now (getRow s.acct (SUBNETS name)).last_stake_at).getD 0)
               * 3600)) :: (unstakeLoop oracle now rest s).reports,
           (unstakeLoop oracle now rest s).aborted⟩ := by
    intro name rest s hst hlt
    rw [unstakeLoop]
    dsimp only
    rw [if_pos hst, if_neg (not_le.mpr hlt)]
  refine ⟨key, ?_, ?_, ?_⟩
  · intro t h
    have hs : (hours_since now (some t)).getD 0 = (now - t) / 3600 := rfl
    rw [hs] at h ⊢
    have he : ((now - t) / 3600) * 3600 = now - t :=
      div_mul_cancel₀ _ (by norm_num)
    rw [he]
    have h24 : (now - t) / 3600 < 24 := h
    have hlt : now - t < 24 * 3600 := by
      have := (div_lt_iff₀ (by norm_num : (0:ℚ) < 3600)).mp h24
      linarith
    unfold truncQ
    rw [if_neg (by push_neg; linarith)]
    norm_num
  · intro name rest s hst hnone
    have hz : (hours_since now (getRow s.acct (SUBNETS name)).last_stake_at).getD 0
        = 0 := by
      rw [hnone]
      rfl
    refine ⟨hz, ?_⟩
    have h1 := key name rest s hst (by rw [hz]; norm_num [UNSTAKE_AFTER_HOURS])
    rw [h1, hz]
  · intro name rest s hst
    rw [unstakeLoop]
    dsimp only
    rw [if_neg (by rw [hst]; exact Bool.false_ne_true)]

/-- Witness for C4 at a concrete input: a target staked at time 0 seen
one hour later has 23 hours left, reported as the floor of
`86400 − 3600` seconds. -/
theorem c4_unstake_time_gate_witness :
    truncQ (24 * 3600 - ((hours_since (3600 : ℚ) (some 0)).getD 0) * 3600)
      = ⌊(86400 : ℚ) - ((3600 : ℚ) - 0)⌋ :=
  (c4_unstake_time_gate soAllOk (3600 : ℚ)).2.1 0
    (by norm_num [hours_since, UNSTAKE_AFTER_HOURS])

theorem getRow_pset (m : List (String × SubnetRow)) (k k' : String) (v : SubnetRow) :
    getRow (pset k v m) k' = if k' = k then v else getRow m k' := by
  unfold getRow
  rw [plookup_pset]
  split <;> rfl

/-- The claim loop never touches the staked flag, the stake timestamp
or the unstake timestamp of any record. -/
theorem claimLoop_frame (oracle : Nat → RR) (now : ℚ) :
    ∀ names s sub,
      (getRow (claimLoop oracle now names s).s.acct sub).staked
          = (getRow s.acct sub).staked
      ∧ (getRow (claimLoop oracle now names s).s.acct sub).last_stake_at
          = (getRow s.acct sub).last_stake_at
      ∧ (getRow (claimLoop oracle now names s).s.acct sub).last_unstake_at
          = (getRow s.acct sub).last_unstake_at := by
  intro names
  induction names with
  | nil => intro s sub; exact ⟨rfl, rfl, rfl⟩
  | cons name rest ih =>
    intro s sub
    rw [claimLoop]
    dsimp only
    by_cases hst : (getRow s.acct (SUBNETS name)).staked = true
    · rw [if_pos hst]
      cases ho : oracle s.calls with
      | ok a b =>
        simp only
        have IH := ih { s with acct := pset (SUBNETS name) ({ getRow s.acct (SUBNETS name) with last_claim_at := some now }) s.acct, calls := s.calls + 1, claimedC := s.claimedC + 1 } sub
        have hg := getRow_pset s.acct (SUBNETS name) sub
          { getRow s.acct (SUBNETS name) with last_claim_at := some now }
        by_cases he : sub = SUBNETS name
        · rw [if_pos he] at hg
          subst he
          exact ⟨IH.1.trans (by rw [hg]), IH.2.1.trans (by rw [hg]),
            IH.2.2.trans (by rw [hg])⟩
        · rw [if_neg he] at hg
          exact ⟨IH.1.trans (by rw [hg]), IH.2.1.trans (by rw [hg]),
            IH.2.2.trans (by rw [hg])⟩
      | throttled => exact ⟨rfl, rfl, rfl⟩
      | err => exact ih _ sub
    · rw [if_neg hst]
      exact ih s sub

/-- Absent a cycle abort, the claim loop issues one claim call for
every target staked at entry, regardless of elapsed time. -/
theorem claimLoop_covers (oracle : Nat → RR) (now : ℚ) :
    ∀ names s name, (claimLoop oracle now names s).aborted = false →
      name ∈ names → (getRow s.acct (SUBNETS name)).staked = true →
      StakeOp.claimAt name ∈ (claimLoop oracle now names s).ops := by
  intro names
  induction names with
  | nil => intro s name _ h; simp at h
  | cons n rest ih =>
    intro s name hab hmem hst
    rw [claimLoop] at hab ⊢
    dsimp only at hab ⊢
    by_cases hstn : (getRow s.acct (SUBNETS n)).staked = true
    · rw [if_pos hstn] at hab ⊢
      cases ho : oracle s.calls with
      | ok a b =>
        rw [ho] at hab
        dsimp only at hab ⊢
        rcases List.mem_cons.mp hmem with he | hmem2
        · subst he
          exact List.mem_cons_self _ _
        · apply List.mem_cons_of_mem
          apply ih _ name hab hmem2
          have hg := getRow_pset s.acct (SUBNETS n) (SUBNETS name)
            { getRow s.acct (SUBNETS n) with last_claim_at := some now }
          by_cases he2 : SUBNETS name = SUBNETS n
          · rw [if_pos he2] at hg
            show (getRow (pset (SUBNETS n)
              ({ getRow s.acct (SUBNETS n) with last_claim_at := some now }) s.acct)
              (SUBNETS name)).staked = true
            rw [hg]
            exact hstn
          · rw [if_neg he2] at hg
            show (getRow (pset (SUBNETS n)
              ({ getRow s.acct (SUBNETS n) with last_claim_at := some now }) s.acct)
              (SUBNETS name)).staked = true
            rw [hg]
            exact hst
      | throttled =>
        rw [ho] at hab
        exact absurd hab (by simp)
      | err =>
        rw [ho] at hab
        dsimp only at hab ⊢
        rcases List.mem_cons.mp hmem with he | hmem2
        · subst he
          exact List.mem_cons_self _ _
        · exact List.mem_cons_of_mem _ (ih _ name hab hmem2 hst)
    · rw [if_neg hstn] at hab ⊢
      rcases List.mem_cons.mp hmem with he | hmem2
      · subst he
        exact absurd hst hstn
      · exact ih s name hab hmem2 hst

/-- C8: the claim phase issues a claim-rewards call for every staked
target regardless of elapsed time (absent a cycle abort), a
successful claim sets only `last_claim_at = now` while counting it,
and no record's staked flag, `last_stake_at` or `last_unstake_at` is
ever modified by the phase. -/
theorem c8_claim_phase_frame (oracle : Nat → RR) (now : ℚ) :
    (∀ names s sub,
      (getRow (claimLoop oracle now names s).s.acct sub).staked
          = (getRow s.acct sub).staked
      ∧ (getRow (claimLoop oracle now names s).s.acct sub).last_stake_at
          = (getRow s.acct sub).last_stake_at
      ∧ (getRow (claimLoop oracle now names s).s.acct sub).last_unstake_at
          = (getRow s.acct sub).last_unstake_at)
    ∧ (∀ names s name, (claimLoop oracle now names s).aborted = false →
        name ∈ names → (getRow s.acct (SUBNETS name)).staked = true →
        StakeOp.claimAt name ∈ (claimLoop oracle now names s).ops)
    ∧ (∀ name rest s a b, (getRow s.acct (SUBNETS name)).staked = true →
        oracle s.calls = .ok a b →
        claimLoop oracle now (name :: rest) s
          = ⟨(claimLoop oracle now rest { s with
                acct := pset (SUBNETS name)
                  ({ getRow s.acct (SUBNETS name) with last_claim_at := some now })
                  s.acct,
                calls := s.calls + 1, claimedC := s.claimedC + 1 }).s,
             .claimAt name :: (claimLoop oracle now rest { s with
                acct := pset (SUBNETS name)
                  ({ getRow s.acct (SUBNETS name) with last_claim_at := some now })
                  s.acct,
                calls := s.calls + 1, claimedC := s.claimedC + 1 }).ops,
             (claimLoop oracle now rest { s with
                acct := pset (SUBNETS name)
                  ({ getRow s.acct (SUBNETS name) with last_claim_at := some now })
                  s.acct,
                calls := s.calls + 1, claimedC := s.claimedC + 1 }).aborted⟩) := by
  refine ⟨claimLoop_frame oracle now, claimLoop_covers oracle now, ?_⟩
  intro name rest s a b hst ho
  rw [claimLoop]
  dsimp only
  rw [if_pos hst, ho]

/-- Witness for C8 at a concrete input: the staked first target of
`sStaked` receives a claim call when every remote call succeeds. -/
theorem c8_claim_phase_frame_witness :
    StakeOp.claimAt "Kite AI Agents" ∈ (claimLoop soAllOk 0 SUBNET_ORDER sStaked).ops :=
  (c8_claim_phase_frame soAllOk 0).2.1 SUBNET_ORDER sStaked "Kite AI Agents"
    (by decide) (by decide) (by decide)

theorem all_of_plookup {α : Type} (p : α → Bool) :
    ∀ (m : List (String × α)), m.all (fun kv => p kv.2) = true →
      ∀ k v, plookup k m = some v → p v = true := by
  intro m
  induction m with
  | nil => intro _ k v h; exact absurd h (by simp [plookup])
  | cons kv rest ih =>
    obtain ⟨k0, v0⟩ := kv
    intro hall k v h
    rw [List.all_cons, Bool.and_eq_true] at hall
    rw [plookup] at h
    split at h
    · injection h with he
      rw [← he]
      exact hall.1
    · exact ih hall.2 k v h

theorem all_pset {α : Type} (p : α → Bool) :
    ∀ (m : List (String × α)) (k : String) (v : α),
      m.all (fun kv => p kv.2) = true → p v = true →
      (pset k v m).all (fun kv => p kv.2) = true := by
  intro m
  induction m with
  | nil => intro k v _ hv; simp [pset, hv]
  | cons kv rest ih =>
    obtain ⟨k0, v0⟩ := kv
    intro k v hall hv
    rw [List.all_cons, Bool.and_eq_true] at hall
    by_cases h0 : k0 = k
    · subst h0
      simp [pset, List.all_cons, hv, hall.2]
    · simp [pset, h0, List.all_cons, hall.1, ih k v hall.2 hv]

theorem all_insertIfAbsent {α : Type} (p : α → Bool)
    (m : List (String × α)) (k : String) (v : α)
    (hall : m.all (fun kv => p kv.2) = true) (hv : p v = true) :
    (insertIfAbsent m k v).all (fun kv => p kv.2) = true := by
  unfold insertIfAbsent
  split
  · exact hall
  · rw [List.all_append, hall]
    simp [hv]

theorem isSome_pset {α : Type} (m : List (String × α)) (k k' : String) (v : α)
    (h : (plookup k' m).isSome = true) :
    (plookup k' (pset k v m)).isSome = true := by
  rw [plookup_pset]
  split
  · rfl
  · exact h

theorem mapOk_rowOk_getRow (m : List (String × SubnetRow))
    (h : mapOk m = true) (k : String) : rowOk (getRow m k) = true := by
  unfold getRow
  cases hp : plookup k m with
  | none => rfl
  | some w => exact all_of_plookup rowOk m h k w hp

theorem foldIns_mapOk :
    ∀ (names : List String) (m : List (String × SubnetRow)),
      mapOk m = true → mapOk (foldIns names m) = true := by
  intro names
  induction names with
  | nil => intro m h; exact h
  | cons n rest ih =>
    intro m h
    exact ih _ (all_insertIfAbsent rowOk m (SUBNETS n) (defaultRow n) h rfl)

theorem ensure_bind_some (st : Store) (a : String) :
    ∀ a' sub row,
      (plookup a' st.accounts).bind (plookup sub) = some row →
      (plookup a' (ensure_account_state st a).accounts).bind (plookup sub)
        = some row := by
  have hself := plookup_insertIfAbsent_self st.accounts a ([] : List (String × SubnetRow))
  obtain ⟨m, hm⟩ := Option.isSome_iff_exists.mp hself
  have hens : ensure_account_state st a
      = ⟨pset a (foldIns SUBNET_ORDER m) (insertIfAbsent st.accounts a [])⟩ := by
    unfold ensure_account_state
    dsimp only
    rw [hm]
    rfl
  have hlook : plookup a (ensure_account_state st a).accounts
      = some (foldIns SUBNET_ORDER m) := by
    rw [hens]
    exact (plookup_pset _ a a _).trans (if_pos rfl)
  intro a' sub row h
  by_cases ha' : a' = a
  · subst ha'
    cases hacc : plookup a' st.accounts with
    | none => rw [hacc] at h; exact absurd h (by simp)
    | some m0 =>
      have hA1 : insertIfAbsent st.accounts a' [] = st.accounts :=
        insertIfAbsent_of_present _ a' [] (by rw [hacc]; rfl)
      have hm0 : m = m0 := by
        rw [hA1, hacc] at hm
        injection hm with he
        exact he.symm
      subst hm0
      rw [hlook]
      rw [hacc] at h
      exact foldIns_some SUBNET_ORDER m sub row h
  · rw [hens]
    show (plookup a' (pset a (foldIns SUBNET_ORDER m)
      (insertIfAbsent st.accounts a []))).bind (plookup sub) = some row
    rw [plookup_pset, if_neg ha', plookup_insertIfAbsent_ne st.accounts a a' [] ha']
    exact h

theorem ensure_hasRow (st : Store) (a a' sub : String)
    (h : hasRow st a' sub = true) :
    hasRow (ensure_account_state st a) a' sub = true := by
  unfold hasRow at h ⊢
  cases hp : plookup a' st.accounts with
  | none => rw [hp] at h; exact absurd h (by simp)
  | some m0 =>
    rw [hp] at h
    cases hq : plookup sub m0 with
    | none =>
      have : (plookup sub m0).isSome = true := h
      rw [hq] at this
      exact absurd this (by simp)
    | some row =>
      have hb : (plookup a' st.accounts).bind (plookup sub) = some row := by
        rw [hp]
        exact hq
      rw [ensure_bind_some st a a' sub row hb]
      rfl

theorem ensure_storeOk (st : Store) (a : String) (h : storeOk st = true) :
    storeOk (ensure_account_state st a) = true := by
  have hself := plookup_insertIfAbsent_self st.accounts a ([] : List (String × SubnetRow))
  obtain ⟨m, hm⟩ := Option.isSome_iff_exists.mp hself
  have hens : ensure_account_state st a
      = ⟨pset a (foldIns SUBNET_ORDER m) (insertIfAbsent st.accounts a [])⟩ := by
    unfold ensure_account_state
    dsimp only
    rw [hm]
    rfl
  have hA1 : (insertIfAbsent st.accounts a
      ([] : List (String × SubnetRow))).all (fun kv => mapOk kv.2) = true :=
    all_insertIfAbsent mapOk st.accounts a [] h rfl
  have hmok : mapOk m = true :=
    all_of_plookup mapOk _ hA1 a m hm
  rw [hens]
  exact all_pset mapOk _ a _ hA1 (foldIns_mapOk SUBNET_ORDER m hmok)

theorem stakeLoop_inv (oracle : Nat → RR) (now : ℚ) (opCon : String → StakeOp) :
    ∀ names s, mapOk s.acct = true →
      mapOk (stakeLoop oracle now opCon names s).s.acct = true
      ∧ ∀ sub, (plookup sub s.acct).isSome = true →
          (plookup sub (stakeLoop oracle now opCon names s).s.acct).isSome = true := by
  intro names
  induction names with
  | nil => intro s h; exact ⟨h, fun _ hs => hs⟩
  | cons name rest ih =>
    intro s h
    rw [stakeLoop]
    dsimp only
    split
    · cases oracle s.calls with
      | ok a b =>
        dsimp only
        have IH := ih { s with acct := pset (SUBNETS name) ({ getRow s.acct (SUBNETS name) with staked := true, last_stake_at := some now }) s.acct, kite := s.kite - 1, calls := s.calls + 1, stakedC := s.stakedC + 1 } (by exact all_pset rowOk s.acct (SUBNETS name) _ h (by simp [rowOk]))
        exact ⟨IH.1, fun sub hs => IH.2 sub (isSome_pset _ _ _ _ hs)⟩
      | throttled => exact ⟨h, fun _ hs => hs⟩
      | err => exact ih _ h
    · exact ih s h

theorem claimLoop_inv (oracle : Nat → RR) (now : ℚ) :
    ∀ names s, mapOk s.acct = true →
      mapOk (claimLoop oracle now names s).s.acct = true
      ∧ ∀ sub, (plookup sub s.acct).isSome = true →
          (plookup sub (claimLoop oracle now names s).s.acct).isSome = true := by
  intro names
  induction names with
  | nil => intro s h; exact ⟨h, fun _ hs => hs⟩
  | cons name rest ih =>
    intro s h
    rw [claimLoop]
    dsimp only
    split
    · cases oracle s.calls with
      | ok a b =>
        dsimp only
        have hrow : rowOk ({ getRow s.acct (SUBNETS name) with last_claim_at := some now }) = true :=
          mapOk_rowOk_getRow s.acct h (SUBNETS name)
        have IH := ih { s with acct := pset (SUBNETS name) ({ getRow s.acct (SUBNETS name) with last_claim_at := some now }) s.acct, calls := s.calls + 1, claimedC := s.claimedC + 1 } (by exact all_pset rowOk s.acct (SUBNETS name) _ h hrow)
        exact ⟨IH.1, fun sub hs => IH.2 sub (isSome_pset _ _ _ _ hs)⟩
      | throttled => exact ⟨h, fun _ hs => hs⟩
      | err => exact ih _ h
    · exact ih s h

theorem unstakeLoop_inv (oracle : Nat → RR) (now : ℚ) :
    ∀ names s, mapOk s.acct = true →
      mapOk (unstakeLoop oracle now names s).s.acct = true
      ∧ ∀ sub, (plookup sub s.acct).isSome = true →
          (plookup sub (unstakeLoop oracle now names s).s.acct).isSome = true := by
  intro names
  induction names with
  | nil => intro s h; exact ⟨h, fun _ hs => hs⟩
  | cons name rest ih =>
    intro s h
    rw [unstakeLoop]
    dsimp only
    split
    · split
      · cases oracle s.calls with
        | ok a b =>
          dsimp only
          have IH := ih { s with acct := pset (SUBNETS name) ({ getRow s.acct (SUBNETS name) with staked := false, last_unstake_at := some now }) s.acct, calls := s.calls + 1, unstakedC := s.unstakedC + 1 } (by exact all_pset rowOk s.acct (SUBNETS name) _ h (by simp [rowOk]))
          exact ⟨IH.1, fun sub hs => IH.2 sub (isSome_pset _ _ _ _ hs)⟩
        | throttled => exact ⟨h, fun _ hs => hs⟩
        | err => exact ih _ h
      · exact ih s h
    · exact ih s h

set_option maxHeartbeats 2000000 in
/-- C7: across a whole `staking_cycle`, every record that is staked
carries a stake timestamp (`storeOk`), records are never deleted —
every (account, target) pair present before is present after — and
(with `ensure_account_state`, see C10) records are only created with
defaults and toggled, never removed. -/
theorem c7_staked_implies_timestamp (oracle : Nat → RR) (now : ℚ)
    (store : Store) (address : String) (h : storeOk store = true) :
    storeOk (staking_cycle oracle now store address).store = true
    ∧ ∀ a sub, hasRow store a sub = true →
        hasRow (staking_cycle oracle now store address).store a sub = true := by
  have hSt : storeOk (ensure_account_state store address) = true :=
    ensure_storeOk store address h
  have hacct0 : mapOk ((plookup address
      (ensure_account_state store address).accounts).getD []) = true := by
    cases hp : plookup address (ensure_account_state store address).accounts with
    | none => rfl
    | some m1 => exact all_of_plookup mapOk _ hSt address m1 hp
  have final : ∀ acctF : List (String × SubnetRow), mapOk acctF = true →
      (∀ sub, (plookup sub ((plookup address
          (ensure_account_state store address).accounts).getD [])).isSome = true →
        (plookup sub acctF).isSome = true) →
      storeOk (putAcct (ensure_account_state store address) address acctF) = true
      ∧ ∀ a sub, hasRow store a sub = true →
          hasRow (putAcct (ensure_account_state store address) address acctF)
            a sub = true := by
    intro acctF hF hDom
    constructor
    · exact all_pset mapOk _ address acctF hSt hF
    · intro a sub hr
      have hr2 := ensure_hasRow store address a sub hr
      unfold hasRow at hr2 ⊢
      show ((plookup a (pset address acctF
        (ensure_account_state store address).accounts)).bind (plookup sub)).isSome = true
      rw [plookup_pset]
      by_cases ha : a = address
      · rw [if_pos ha]
        rw [ha] at hr2
        cases hp : plookup address (ensure_account_state store address).accounts with
        | none => rw [hp] at hr2; exact absurd hr2 (by simp)
        | some m1 =>
          rw [hp] at hr2
          have hs1 : (plookup sub ((plookup address
              (ensure_account_state store address).accounts).getD [])).isSome = true := by
            rw [hp]
            exact hr2
          exact hDom sub hs1
      · rw [if_neg ha]
        exact hr2
  have I1 : ∀ (run : Prop) [inst : Decidable run] (opCon : String → StakeOp)
      (s : CycSt), mapOk s.acct = true →
      mapOk (stakePhase oracle now run opCon s).s.acct = true
      ∧ ∀ sub, (plookup sub s.acct).isSome = true →
          (plookup sub (stakePhase oracle now run opCon s).s.acct).isSome = true := by
    intro run inst opCon s hs
    unfold stakePhase
    split
    · exact stakeLoop_inv oracle now opCon SUBNET_ORDER s hs
    · exact ⟨hs, fun _ hx => hx⟩
  rw [staking_cycle]
  dsimp only
  split
  · exact ⟨hSt, fun a sub hr => ensure_hasRow store address a sub hr⟩
  · have E1 := I1 (STAKE_MIN ≤ (match oracle 0 with | RR.ok k _ => k | _ => 0)) StakeOp.stakeTo (⟨(plookup address (ensure_account_state store address).accounts).getD [], (match oracle 0 with | RR.ok k _ => k | _ => 0), 1, 0, 0, 0⟩ : CycSt) hacct0
    have E2 := claimLoop_inv oracle now SUBNET_ORDER (stakePhase oracle now (STAKE_MIN ≤ (match oracle 0 with | RR.ok k _ => k | _ => 0)) StakeOp.stakeTo (⟨(plookup address (ensure_account_state store address).accounts).getD [], (match oracle 0 with | RR.ok k _ => k | _ => 0), 1, 0, 0, 0⟩ : CycSt)).s E1.1
    have E3 := unstakeLoop_inv oracle now SUBNET_ORDER (claimLoop oracle now SUBNET_ORDER (stakePhase oracle now (STAKE_MIN ≤ (match oracle 0 with | RR.ok k _ => k | _ => 0)) StakeOp.stakeTo (⟨(plookup address (ensure_account_state store address).accounts).getD [], (match oracle 0 with | RR.ok k _ => k | _ => 0), 1, 0, 0, 0⟩ : CycSt)).s).s E2.1
    have E5 := I1 (STAKE_MIN ≤ (match oracle (unstakeLoop oracle now SUBNET_ORDER (claimLoop oracle now SUBNET_ORDER (stakePhase oracle now (STAKE_MIN ≤ (match oracle 0 with | RR.ok k _ => k | _ => 0)) StakeOp.stakeTo (⟨(plookup address (ensure_account_state store address).accounts).getD [], (match oracle 0 with | RR.ok k _ => k | _ => 0), 1, 0, 0, 0⟩ : CycSt)).s).s).s.calls with | RR.ok k _ => k | _ => 0)) StakeOp.restakeTo { (unstakeLoop oracle now SUBNET_ORDER (claimLoop oracle now SUBNET_ORDER (stakePhase oracle now (STAKE_MIN ≤ (match oracle 0 with | RR.ok k _ => k | _ => 0)) StakeOp.stakeTo (⟨(plookup address (ensure_account_state store address).accounts).getD [], (match oracle 0 with | RR.ok k _ => k | _ => 0), 1, 0, 0, 0⟩ : CycSt)).s).s).s with kite := (match oracle (unstakeLoop oracle now SUBNET_ORDER (claimLoop oracle now SUBNET_ORDER (stakePhase oracle now (STAKE_MIN ≤ (match oracle 0 with | RR.ok k _ => k | _ => 0)) StakeOp.stakeTo (⟨(plookup address (ensure_account_state store address).accounts).getD [], (match oracle 0 with | RR.ok k _ => k | _ => 0), 1, 0, 0, 0⟩ : CycSt)).s).s).s.calls with | RR.ok k _ => k | _ => 0), calls := (unstakeLoop oracle now SUBNET_ORDER (claimLoop oracle now SUBNET_ORDER (stakePhase oracle now (STAKE_MIN ≤ (match oracle 0 with | RR.ok k _ => k | _ => 0)) StakeOp.stakeTo (⟨(plookup address (ensure_account_state store address).accounts).getD [], (match oracle 0 with | RR.ok k _ => k | _ => 0), 1, 0, 0, 0⟩ : CycSt)).s).s).s.calls + 1 } E3.1
    split
    · exact final _ E1.1 (fun sub hs => E1.2 sub hs)
    · split
      · exact final _ E2.1 (fun sub hs => E2.2 sub (E1.2 sub hs))
      · split
        · exact final _ E3.1 (fun sub hs => E3.2 sub (E2.2 sub (E1.2 sub hs)))
        · exact final _ E5.1
            (fun sub hs => E5.2 sub (E3.2 sub (E2.2 sub (E1.2 sub hs))))

/-- Witness for C7 at a concrete input: `storeStaked` satisfies the
invariant and keeps it, and its existing record survives the cycle. -/
theorem c7_staked_implies_timestamp_witness :
    storeOk (staking_cycle soAllOk 0 storeStaked "0xacc").store = true
    ∧ hasRow (staking_cycle soAllOk 0 storeStaked "0xacc").store
        "0xacc" (SUBNETS "Kite AI Agents") = true :=
  ⟨(c7_staked_implies_timestamp soAllOk 0 storeStaked "0xacc" (by decide)).1,
   (c7_staked_implies_timestamp soAllOk 0 storeStaked "0xacc" (by decide)).2
     "0xacc" (SUBNETS "Kite AI Agents") (by decide)⟩

theorem opsChar_weaken {oracle : Nat → RR} {start : Nat} {ops : List StakeOp}
    {ab : Bool} (h : opsChar oracle start ops ab) : opsChar oracle start ops true :=
  fun j hj hp ht => ⟨(h j hj hp ht).1, rfl⟩

theorem opsChar_start_eq {oracle : Nat → RR} {s1 s2 : Nat} {ops : List StakeOp}
    {ab : Bool} (h : opsChar oracle s1 ops ab) (he : s1 = s2) :
    opsChar oracle s2 ops ab :=
  he ▸ h

theorem opsChar_cons_bal {oracle : Nat → RR} {start : Nat} {l : List StakeOp}
    {ab : Bool} (h : opsChar oracle (start + 1) l ab) :
    opsChar oracle start (StakeOp.bal :: l) ab := by
  intro j hj hph hthr
  rw [List.get_eq_getElem] at hph
  cases j with
  | zero =>
    rw [List.getElem_cons_zero] at hph
    exact absurd hph (by simp [StakeOp.isPhase])
  | succ j' =>
    rw [List.getElem_cons_succ] at hph
    simp only [List.length_cons] at hj
    have hj' : j' < l.length := by omega
    have harg : start + (j' + 1) = (start + 1) + j' := by omega
    rw [harg] at hthr
    obtain ⟨h1, h2⟩ := h j' hj' (by rw [List.get_eq_getElem]; exact hph) hthr
    refine ⟨?_, h2⟩
    simp only [List.length_cons]
    omega

theorem opsChar_append {oracle : Nat → RR} {start : Nat} {l1 l2 : List StakeOp}
    {ab : Bool} (h1 : opsChar oracle start l1 false)
    (h2 : opsChar oracle (start + l1.length) l2 ab) :
    opsChar oracle start (l1 ++ l2) ab := by
  intro j hj hph hthr
  rw [List.get_eq_getElem] at hph
  by_cases hj1 : j < l1.length
  · rw [List.getElem_append_left hj1] at hph
    have := h1 j hj1 (by rw [List.get_eq_getElem]; exact hph) hthr
    exact absurd this.2 (by simp)
  · push_neg at hj1
    rw [List.getElem_append_right hj1] at hph
    rw [List.length_append] at hj
    have hj2 : j - l1.length < l2.length := by omega
    have harg : start + j = (start + l1.length) + (j - l1.length) := by omega
    rw [harg] at hthr
    obtain ⟨h1a, h2a⟩ := h2 (j - l1.length) hj2
      (by rw [List.get_eq_getElem]; exact hph) hthr
    refine ⟨?_, h2a⟩
    rw [List.length_append]
    omega

theorem opsChar_cons_phase {oracle : Nat → RR} {start : Nat} {l : List StakeOp}
    {ab : Bool} {op : StakeOp} (hok : oracle start ≠ .throttled)
    (h : opsChar oracle (start + 1) l ab) :
    opsChar oracle start (op :: l) ab := by
  intro j hj hph hthr
  cases j with
  | zero =>
    rw [Nat.add_zero] at hthr
    exact absurd hthr hok
  | succ j' =>
    rw [List.get_eq_getElem, List.getElem_cons_succ] at hph
    simp only [List.length_cons] at hj
    have hj' : j' < l.length := by omega
    have harg : start + (j' + 1) = (start + 1) + j' := by omega
    rw [harg] at hthr
    obtain ⟨h1, h2⟩ := h j' hj' (by rw [List.get_eq_getElem]; exact hph) hthr
    refine ⟨?_, h2⟩
    simp only [List.length_cons]
    omega

theorem stakeLoop_callsEq (oracle : Nat → RR) (now : ℚ) (opCon : String → StakeOp) :
    ∀ names s, (stakeLoop oracle now opCon names s).s.calls
      = s.calls + (stakeLoop oracle now opCon names s).ops.length := by
  intro names
  induction names with
  | nil => intro s; rw [stakeLoop]; simp
  | cons name rest ih =>
    intro s
    rw [stakeLoop]
    dsimp only
    split
    · cases oracle s.calls with
      | ok a b =>
        dsimp only
        rw [ih]
        simp only [List.length_cons]
        omega
      | throttled => simp
      | err =>
        dsimp only
        rw [ih]
        simp only [List.length_cons]
        omega
    · exact ih s

theorem claimLoop_callsEq (oracle : Nat → RR) (now : ℚ) :
    ∀ names s, (claimLoop oracle now names s).s.calls
      = s.calls + (claimLoop oracle now names s).ops.length := by
  intro names
  induction names with
  | nil => intro s; rw [claimLoop]; simp
  | cons name rest ih =>
    intro s
    rw [claimLoop]
    dsimp only
    split
    · cases oracle s.calls with
      | ok a b =>
        dsimp only
        rw [ih]
        simp only [List.length_cons]
        omega
      | throttled => simp
      | err =>
        dsimp only
        rw [ih]
        simp only [List.length_cons]
        omega
    · exact ih s

theorem unstakeLoop_callsEq (oracle : Nat → RR) (now : ℚ) :
    ∀ names s, (unstakeLoop oracle now names s).s.calls
      = s.calls + (unstakeLoop oracle now names s).ops.length := by
  intro names
  induction names with
  | nil => intro s; rw [unstakeLoop]; simp
  | cons name rest ih =>
    intro s
    rw [unstakeLoop]
    dsimp only
    split
    · split
      · cases oracle s.calls with
        | ok a b =>
          dsimp only
          rw [ih]
          simp only [List.length_cons]
          omega
        | throttled => simp
        | err =>
          dsimp only
          rw [ih]
          simp only [List.length_cons]
          omega
      · exact ih s
    · exact ih s

theorem stakeLoop_char (oracle : Nat → RR) (now : ℚ) (opCon : String → StakeOp) :
    ∀ names s, opsChar oracle s.calls (stakeLoop oracle now opCon names s).ops
      (stakeLoop oracle now opCon names s).aborted := by
  intro names
  induction names with
  | nil =>
    intro s j hj _ _
    rw [stakeLoop] at hj
    simp at hj
  | cons name rest ih =>
    intro s
    rw [stakeLoop]
    dsimp only
    split
    · cases ho : oracle s.calls with
      | ok a b =>
        dsimp only
        exact opsChar_cons_phase (by rw [ho]; simp) (ih _)
      | throttled =>
        dsimp only
        intro j hj hph hthr
        simp only [List.length_cons, List.length_nil] at hj ⊢
        exact ⟨by omega, trivial⟩
      | err =>
        dsimp only
        exact opsChar_cons_phase (by rw [ho]; simp) (ih _)
    · exact ih s

theorem claimLoop_char (oracle : Nat → RR) (now : ℚ) :
    ∀ names s, opsChar oracle s.calls (claimLoop oracle now names s).ops
      (claimLoop oracle now names s).aborted := by
  intro names
  induction names with
  | nil =>
    intro s j hj _ _
    rw [claimLoop] at hj
    simp at hj
  | cons name rest ih =>
    intro s
    rw [claimLoop]
    dsimp only
    split
    · cases ho : oracle s.calls with
      | ok a b =>
        dsimp only
        exact opsChar_cons_phase (by rw [ho]; simp) (ih _)
      | throttled =>
        dsimp only
        intro j hj hph hthr
        simp only [List.length_cons, List.length_nil] at hj ⊢
        exact ⟨by omega, trivial⟩
      | err =>
        dsimp only
        exact opsChar_cons_phase (by rw [ho]; simp) (ih _)
    · exact ih s

theorem unstakeLoop_char (oracle : Nat → RR) (now : ℚ) :
    ∀ names s, opsChar oracle s.calls (unstakeLoop oracle now names s).ops
      (unstakeLoop oracle now names s).aborted := by
  intro names
  induction names with
  | nil =>
    intro s j hj _ _
    rw [unstakeLoop] at hj
    simp at hj
  | cons name rest ih =>
    intro s
    rw [unstakeLoop]
    dsimp only
    split
    · split
      · cases ho : oracle s.calls with
        | ok a b =>
          dsimp only
          exact opsChar_cons_phase (by rw [ho]; simp) (ih _)
        | throttled =>
          dsimp only
          intro j hj hph hthr
          simp only [List.length_cons, List.length_nil] at hj ⊢
          exact ⟨by omega, trivial⟩
        | err =>
          dsimp only
          exact opsChar_cons_phase (by rw [ho]; simp) (ih _)
      · exact ih s
    · exact ih s

theorem stakePhase_callsEq (oracle : Nat → RR) (now : ℚ) (run : Prop)
    [inst : Decidable run] (opCon : String → StakeOp) (s : CycSt) :
    (stakePhase oracle now run opCon s).s.calls
      = s.calls + (stakePhase oracle now run opCon s).ops.length := by
  unfold stakePhase
  split
  · exact stakeLoop_callsEq oracle now opCon SUBNET_ORDER s
  · rfl

theorem stakePhase_char (oracle : Nat → RR) (now : ℚ) (run : Prop)
    [inst : Decidable run] (opCon : String → StakeOp) (s : CycSt) :
    opsChar oracle s.calls (stakePhase oracle now run opCon s).ops
      (stakePhase oracle now run opCon s).aborted := by
  unfold stakePhase
  split
  · exact stakeLoop_char oracle now opCon SUBNET_ORDER s
  · intro j hj _ _
    simp at hj

/-- C5: a throttled outcome on any phase call (stake, claim, unstake
or re-stake — never a balance fetch) ends the cycle's call trace at
that very call with the mutated state saved (`opsChar`); and a
non-throttled failure on an individual target consumes the call,
leaves that target's record untouched and continues with the next
target, in each of the three loop shapes. -/
theorem c5_staking_throttle_abort (oracle : Nat → RR) (now : ℚ)
    (store : Store) (address : String) :
    opsChar oracle 0 (staking_cycle oracle now store address).ops
      (staking_cycle oracle now store address).saved
    ∧ (∀ opCon name rest s, (getRow s.acct (SUBNETS name)).staked = false →
        STAKE_MIN ≤ s.kite → oracle s.calls = .err →
        stakeLoop oracle now opCon (name :: rest) s
          = ⟨(stakeLoop oracle now opCon rest { s with calls := s.calls + 1 }).s,
             opCon name
               :: (stakeLoop oracle now opCon rest { s with calls := s.calls + 1 }).ops,
             (stakeLoop oracle now opCon rest { s with calls := s.calls + 1 }).aborted⟩)
    ∧ (∀ name rest s, (getRow s.acct (SUBNETS name)).staked = true →
        oracle s.calls = .err →
        claimLoop oracle now (name :: rest) s
          = ⟨(claimLoop oracle now rest { s with calls := s.calls + 1 }).s,
             .claimAt name
               :: (claimLoop oracle now rest { s with calls := s.calls + 1 }).ops,
             (claimLoop oracle now rest { s with calls := s.calls + 1 }).aborted⟩)
    ∧ (∀ name rest s, (getRow s.acct (SUBNETS name)).staked = true →
        UNSTAKE_AFTER_HOURS
          ≤ (hours_since now (getRow s.acct (SUBNETS name)).last_stake_at).getD 0 →
        oracle s.calls = .err →
        unstakeLoop oracle now (name :: rest) s
          = ⟨(unstakeLoop oracle now rest { s with calls := s.calls + 1 }).s,
             .unstakeFrom name
               :: (unstakeLoop oracle now rest { s with calls := s.calls + 1 }).ops,
             (unstakeLoop oracle now rest { s with calls := s.calls + 1 }).reports,
             (unstakeLoop oracle now rest { s with calls := s.calls + 1 }).aborted⟩) := by
  refine ⟨?_, ?_, ?_, ?_⟩
  · rw [staking_cycle]
    dsimp only
    split
    · intro j hj hph hthr
      simp only [List.length_cons, List.length_nil] at hj
      have hj0 : j = 0 := by omega
      subst hj0
      rw [List.get_eq_getElem, List.getElem_cons_zero] at hph
      exact absurd hph (by simp [StakeOp.isPhase])
    · have Ch1 := stakePhase_char oracle now (STAKE_MIN ≤ (match oracle 0 with | RR.ok k _ => k | _ => 0)) StakeOp.stakeTo (⟨(plookup address (ensure_account_state store address).accounts).getD [], (match oracle 0 with | RR.ok k _ => k | _ => 0), 1, 0, 0, 0⟩ : CycSt)
      have Ch2 := claimLoop_char oracle now SUBNET_ORDER (stakePhase oracle now (STAKE_MIN ≤ (match oracle 0 with | RR.ok k _ => k | _ => 0)) StakeOp.stakeTo (⟨(plookup address (ensure_account_state store address).accounts).getD [], (match oracle 0 with | RR.ok k _ => k | _ => 0), 1, 0, 0, 0⟩ : CycSt)).s
      have Ch3 := unstakeLoop_char oracle now SUBNET_ORDER (claimLoop oracle now SUBNET_ORDER (stakePhase oracle now (STAKE_MIN ≤ (match oracle 0 with | RR.ok k _ => k | _ => 0)) StakeOp.stakeTo (⟨(plookup address (ensure_account_state store address).accounts).getD [], (match oracle 0 with | RR.ok k _ => k | _ => 0), 1, 0, 0, 0⟩ : CycSt)).s).s
      have Ch5 := stakePhase_char oracle now (STAKE_MIN ≤ (match oracle (unstakeLoop oracle now SUBNET_ORDER (claimLoop oracle now SUBNET_ORDER (stakePhase oracle now (STAKE_MIN ≤ (match oracle 0 with | RR.ok k _ => k | _ => 0)) StakeOp.stakeTo (⟨(plookup address (ensure_account_state store address).accounts).getD [], (match oracle 0 with | RR.ok k _ => k | _ => 0), 1, 0, 0, 0⟩ : CycSt)).s).s).s.calls with | RR.ok k _ => k | _ => 0)) StakeOp.restakeTo { (unstakeLoop oracle now SUBNET_ORDER (claimLoop oracle now SUBNET_ORDER (stakePhase oracle now (STAKE_MIN ≤ (match oracle 0 with | RR.ok k _ => k | _ => 0)) StakeOp.stakeTo (⟨(plookup address (ensure_account_state store address).accounts).getD [], (match oracle 0 with | RR.ok k _ => k | _ => 0), 1, 0, 0, 0⟩ : CycSt)).s).s).s with kite := (match oracle (unstakeLoop oracle now SUBNET_ORDER (claimLoop oracle now SUBNET_ORDER (stakePhase oracle now (STAKE_MIN ≤ (match oracle 0 with | RR.ok k _ => k | _ => 0)) StakeOp.stakeTo (⟨(plookup address (ensure_account_state store address).accounts).getD [], (match oracle 0 with | RR.ok k _ => k | _ => 0), 1, 0, 0, 0⟩ : CycSt)).s).s).s.calls with | RR.ok k _ => k | _ => 0), calls := (unstakeLoop oracle now SUBNET_ORDER (claimLoop oracle now SUBNET_ORDER (stakePhase oracle now (STAKE_MIN ≤ (match oracle 0 with | RR.ok k _ => k | _ => 0)) StakeOp.stakeTo (⟨(plookup address (ensure_account_state store address).accounts).getD [], (match oracle 0 with | RR.ok k _ => k | _ => 0), 1, 0, 0, 0⟩ : CycSt)).s).s).s.calls + 1 }
      have hS0 : (⟨(plookup address (ensure_account_state store address).accounts).getD [], (match oracle 0 with | RR.ok k _ => k | _ => 0), 1, 0, 0, 0⟩ : CycSt).calls = 0 + 1 := rfl
      have Ch1s := opsChar_start_eq Ch1 hS0
      have hc1 : (stakePhase oracle now (STAKE_MIN ≤ (match oracle 0 with | RR.ok k _ => k | _ => 0)) StakeOp.stakeTo (⟨(plookup address (ensure_account_state store address).accounts).getD [], (match oracle 0 with | RR.ok k _ => k | _ => 0), 1, 0, 0, 0⟩ : CycSt)).s.calls = 0 + 1 + (stakePhase oracle now (STAKE_MIN ≤ (match oracle 0 with | RR.ok k _ => k | _ => 0)) StakeOp.stakeTo (⟨(plookup address (ensure_account_state store address).accounts).getD [], (match oracle 0 with | RR.ok k _ => k | _ => 0), 1, 0, 0, 0⟩ : CycSt)).ops.length := by
        rw [stakePhase_callsEq]
      have he3 : (claimLoop oracle now SUBNET_ORDER (stakePhase oracle now (STAKE_MIN ≤ (match oracle 0 with | RR.ok k _ => k | _ => 0)) StakeOp.stakeTo (⟨(plookup address (ensure_account_state store address).accounts).getD [], (match oracle 0 with | RR.ok k _ => k | _ => 0), 1, 0, 0, 0⟩ : CycSt)).s).s.calls = 0 + 1 + ((stakePhase oracle now (STAKE_MIN ≤ (match oracle 0 with | RR.ok k _ => k | _ => 0)) StakeOp.stakeTo (⟨(plookup address (ensure_account_state store address).accounts).getD [], (match oracle 0 with | RR.ok k _ => k | _ => 0), 1, 0, 0, 0⟩ : CycSt)).ops ++ (claimLoop oracle now SUBNET_ORDER (stakePhase oracle now (STAKE_MIN ≤ (match oracle 0 with | RR.ok k _ => k | _ => 0)) StakeOp.stakeTo (⟨(plookup address (ensure_account_state store address).accounts).getD [], (match oracle 0 with | RR.ok k _ => k | _ => 0), 1, 0, 0, 0⟩ : CycSt)).s).ops).length := by
        rw [claimLoop_callsEq, hc1, List.length_append]
        omega
      have he5 : ({ (unstakeLoop oracle now SUBNET_ORDER (claimLoop oracle now SUBNET_ORDER (stakePhase oracle now (STAKE_MIN ≤ (match oracle 0 with | RR.ok k _ => k | _ => 0)) StakeOp.stakeTo (⟨(plookup address (ensure_account_state store address).accounts).getD [], (match oracle 0 with | RR.ok k _ => k | _ => 0), 1, 0, 0, 0⟩ : CycSt)).s).s).s with kite := (match oracle (unstakeLoop oracle now SUBNET_ORDER (claimLoop oracle now SUBNET_ORDER (stakePhase oracle now (STAKE_MIN ≤ (match oracle 0 with | RR.ok k _ => k | _ => 0)) StakeOp.stakeTo (⟨(plookup address (ensure_account_state store address).accounts).getD [], (match oracle 0 with | RR.ok k _ => k | _ => 0), 1, 0, 0, 0⟩ : CycSt)).s).s).s.calls with | RR.ok k _ => k | _ => 0), calls := (unstakeLoop oracle now SUBNET_ORDER (claimLoop oracle now SUBNET_ORDER (stakePhase oracle now (STAKE_MIN ≤ (match oracle 0 with | RR.ok k _ => k | _ => 0)) StakeOp.stakeTo (⟨(plookup address (ensure_account_state store address).accounts).getD [], (match oracle 0 with | RR.ok k _ => k | _ => 0), 1, 0, 0, 0⟩ : CycSt)).s).s).s.calls + 1 } : CycSt).calls
          = 0 + 1 + (((stakePhase oracle now (STAKE_MIN ≤ (match oracle 0 with | RR.ok k _ => k | _ => 0)) StakeOp.stakeTo (⟨(plookup address (ensure_account_state store address).accounts).getD [], (match oracle 0 with | RR.ok k _ => k | _ => 0), 1, 0, 0, 0⟩ : CycSt)).ops ++ (claimLoop oracle now SUBNET_ORDER (stakePhase oracle now (STAKE_MIN ≤ (match oracle 0 with | RR.ok k _ => k | _ => 0)) StakeOp.stakeTo (⟨(plookup address (ensure_account_state store address).accounts).getD [], (match oracle 0 with | RR.ok k _ => k | _ => 0), 1, 0, 0, 0⟩ : CycSt)).s).ops) ++ (unstakeLoop oracle now SUBNET_ORDER (claimLoop oracle now SUBNET_ORDER (stakePhase oracle now (STAKE_MIN ≤ (match oracle 0 with | RR.ok k _ => k | _ => 0)) StakeOp.stakeTo (⟨(plookup address (ensure_account_state store address).accounts).getD [], (match oracle 0 with | RR.ok k _ => k | _ => 0), 1, 0, 0, 0⟩ : CycSt)).s).s).ops).length + 1 := by
        dsimp only
        rw [unstakeLoop_callsEq, claimLoop_callsEq, hc1]
        simp only [List.length_append]
        omega
      split
      · exact opsChar_cons_bal (opsChar_weaken Ch1s)
      · rename_i hab1
        have hab1f : (stakePhase oracle now (STAKE_MIN ≤ (match oracle 0 with | RR.ok k _ => k | _ => 0)) StakeOp.stakeTo (⟨(plookup address (ensure_account_state store address).accounts).getD [], (match oracle 0 with | RR.ok k _ => k | _ => 0), 1, 0, 0, 0⟩ : CycSt)).aborted = false := by
          simp only [Bool.not_eq_true] at hab1
          exact hab1
        have Ch1f : opsChar oracle (0 + 1) (stakePhase oracle now (STAKE_MIN ≤ (match oracle 0 with | RR.ok k _ => k | _ => 0)) StakeOp.stakeTo (⟨(plookup address (ensure_account_state store address).accounts).getD [], (match oracle 0 with | RR.ok k _ => k | _ => 0), 1, 0, 0, 0⟩ : CycSt)).ops false := by
          rw [← hab1f]
          exact Ch1s
        split
        · exact opsChar_cons_bal
            (opsChar_append Ch1f (opsChar_start_eq (opsChar_weaken Ch2) hc1))
        · rename_i hab2
          have hab2f : (claimLoop oracle now SUBNET_ORDER (stakePhase oracle now (STAKE_MIN ≤ (match oracle 0 with | RR.ok k _ => k | _ => 0)) StakeOp.stakeTo (⟨(plookup address (ensure_account_state store address).accounts).getD [], (match oracle 0 with | RR.ok k _ => k | _ => 0), 1, 0, 0, 0⟩ : CycSt)).s).aborted = false := by
            simp only [Bool.not_eq_true] at hab2
            exact hab2
          have Ch2f : opsChar oracle (0 + 1 + (stakePhase oracle now (STAKE_MIN ≤ (match oracle 0 with | RR.ok k _ => k | _ => 0)) StakeOp.stakeTo (⟨(plookup address (ensure_account_state store address).accounts).getD [], (match oracle 0 with | RR.ok k _ => k | _ => 0), 1, 0, 0, 0⟩ : CycSt)).ops.length) (claimLoop oracle now SUBNET_ORDER (stakePhase oracle now (STAKE_MIN ≤ (match oracle 0 with | RR.ok k _ => k | _ => 0)) StakeOp.stakeTo (⟨(plookup address (ensure_account_state store address).accounts).getD [], (match oracle 0 with | RR.ok k _ => k | _ => 0), 1, 0, 0, 0⟩ : CycSt)).s).ops false := by
            rw [← hab2f]
            exact opsChar_start_eq Ch2 hc1
          split
          · exact opsChar_cons_bal
              (opsChar_append (opsChar_append Ch1f Ch2f)
                (opsChar_start_eq (opsChar_weaken Ch3) he3))
          · rename_i hab3
            have hab3f : (unstakeLoop oracle now SUBNET_ORDER (claimLoop oracle now SUBNET_ORDER (stakePhase oracle now (STAKE_MIN ≤ (match oracle 0 with | RR.ok k _ => k | _ => 0)) StakeOp.stakeTo (⟨(plookup address (ensure_account_state store address).accounts).getD [], (match oracle 0 with | RR.ok k _ => k | _ => 0), 1, 0, 0, 0⟩ : CycSt)).s).s).aborted = false := by
              simp only [Bool.not_eq_true] at hab3
              exact hab3
            have Ch3f : opsChar oracle (0 + 1 + ((stakePhase oracle now (STAKE_MIN ≤ (match oracle 0 with | RR.ok k _ => k | _ => 0)) StakeOp.stakeTo (⟨(plookup address (ensure_account_state store address).accounts).getD [], (match oracle 0 with | RR.ok k _ => k | _ => 0), 1, 0, 0, 0⟩ : CycSt)).ops ++ (claimLoop oracle now SUBNET_ORDER (stakePhase oracle now (STAKE_MIN ≤ (match oracle 0 with | RR.ok k _ => k | _ => 0)) StakeOp.stakeTo (⟨(plookup address (ensure_account_state store address).accounts).getD [], (match oracle 0 with | RR.ok k _ => k | _ => 0), 1, 0, 0, 0⟩ : CycSt)).s).ops).length) (unstakeLoop oracle now SUBNET_ORDER (claimLoop oracle now SUBNET_ORDER (stakePhase oracle now (STAKE_MIN ≤ (match oracle 0 with | RR.ok k _ => k | _ => 0)) StakeOp.stakeTo (⟨(plookup address (ensure_account_state store address).accounts).getD [], (match oracle 0 with | RR.ok k _ => k | _ => 0), 1, 0, 0, 0⟩ : CycSt)).s).s).ops false := by
              rw [← hab3f]
              exact opsChar_start_eq Ch3 he3
            exact opsChar_cons_bal
              (opsChar_append
                (opsChar_append (opsChar_append Ch1f Ch2f) Ch3f)
                (opsChar_cons_bal (opsChar_start_eq (opsChar_weaken Ch5) he5)))
  · intro opCon name rest s hst hk ho
    rw [stakeLoop]
    dsimp only
    rw [if_pos (And.intro hst hk), ho]
  · intro name rest s hst ho
    rw [claimLoop]
    dsimp only
    rw [if_pos hst, ho]
  · intro name rest s hst hhrs ho
    rw [unstakeLoop]
    dsimp only
    rw [if_pos hst, if_pos hhrs, ho]

/-- Witness for C5 at a concrete input: with one target already staked
and every call after the balance fetch throttled, the cycle's trace is
`[.bal, .claimAt _]`, the throttled claim is its last call, and the
state was saved. -/
theorem c5_staking_throttle_abort_witness :
    1 = (staking_cycle soThenThrottle 0 storeStaked "0xacc").ops.length - 1
    ∧ (staking_cycle soThenThrottle 0 storeStaked "0xacc").saved = true :=
  (c5_staking_throttle_abort soThenThrottle 0 storeStaked "0xacc").1 1
    (by decide) (by decide) (by decide)

/-- C3: the classifier yields `Throttled` exactly for status 429 or a
decoded error field matching the case-insensitive "too many" /
"rate"+"limit" patterns; an undecodable body with status < 400 is
`Ok` with an empty payload; an undecodable body with status ≥ 400 is
an error (never `Ok`). -/
theorem c3_request_json_classification (status : Nat) (body : Option (List (String × String))) :
    (request_json status body = .throttled ↔
      status = 429 ∨ ∃ data, body = some data ∧ throttledText (lowerStr (errField data)) = true)
    ∧ (body = none → status < 400 → request_json status body = .ok [])
    ∧ (body = none → 400 ≤ status → (request_json status body).isOk = false) := by
  refine ⟨?_, ?_, ?_⟩
  · constructor
    · intro h
      unfold request_json at h
      split at h
      · left; assumption
      · cases body with
        | none =>
          simp only at h
          split at h <;> simp_all
        | some data =>
          simp only at h
          split at h
          · exact Or.inr ⟨data, rfl, by assumption⟩
          · split at h <;> simp_all
    · intro h
      rcases h with h429 | ⟨data, hb, hpat⟩
      · unfold request_json
        simp [h429]
      · subst hb
        unfold request_json
        split
        · rfl
        · simp only
          rw [if_pos hpat]
  · intro hb hlt
    subst hb
    unfold request_json
    have h429 : status ≠ 429 := by omega
    rw [if_neg h429]
    simp only
    rw [if_neg (by omega)]
  · intro hb hge
    subst hb
    unfold request_json
    by_cases h429 : status = 429
    · rw [if_pos h429]; rfl
    · rw [if_neg h429]
      simp only
      rw [if_pos hge]
      rfl

/-- Witness for C3 at concrete inputs: status 500 with an undecodable
body is not `Ok`, status 200 with an undecodable body is `Ok []`, and
a 200 body whose error field says "Rate Limit reached" is throttled. -/
theorem c3_request_json_classification_witness :
    (request_json 500 none).isOk = false
    ∧ request_json 200 none = .ok []
    ∧ request_json 200 (some [("error", "Rate Limit reached")]) = .throttled := by
  refine ⟨?_, ?_, ?_⟩
  · exact (c3_request_json_classification 500 none).2.2 rfl (by decide)
  · exact (c3_request_json_classification 200 none).2.1 rfl (by decide)
  · exact (c3_request_json_classification 200 (some [("error", "Rate Limit reached")])).1.2
      (Or.inr ⟨_, rfl, by decide⟩)


end KiteAI
